import Mathlib

/-!
# timingwheelv2: a shallow embedding of the hashed timing wheel

The Go package `timingwheelv2` (file `timingwheelv2.go`) keeps a ring of buckets
(`slots`), a cursor (`curIndex`) and a reverse index (`item2Idx`).  This file
embeds `NewTimingWheel`, `AddItem`, `DelItem`, `stepForward`,
`stepForwardWithObserver` and `itemCount` as pure functions and proves properties
of them.

Modelling decisions:

* A Go `map[K]V` is an association list `GoMap K V`.  Go leaves the iteration
  order of a map unspecified; the model iterates in list order and the theorems
  only speak about membership and multiplicity, never about order.
* The mutex `mux` serialises every method, so a concurrent history is a
  sequence of whole method calls; the model is sequential.
* `k.Release()` is a call-back supplied by the caller; its invocations are recorded in a log
  (a list of the items released, in call order).
* An item is the identity of a comparable, non-nil `Releaser` (a type `α` with
  decidable equality); what `Release` itself does is the caller's business.
* An out-of-range slice index panics in Go; the methods return `none` there.
* The Go runtime refuses `make([]T, n)` with a panic (`makeslice: len out of
  range`) when `n` exceeds a bound that depends on the platform; the bound for
  `make(slotCon, n)` is the parameter `maxLen`, and the constructor returns `none`
  where `make` panics.  Running out of memory below that bound is not modelled.
* `time.Duration` is an `int64`; it is an `Int`, and the one addition that
  could leave the `int64` range is wrapped explicitly (`wrapInt64`).
  Slot indices are Go `int`s that the code only ever sets to `0` or to a
  successor below `len(slots)`; they are `Nat`s.
-/

namespace TimingWheelV2

/-! ## Go maps -/

/-- A Go map, as the list of its key/value pairs. -/
abbrev GoMap (κ ν : Type) := List (κ × ν)

/-- The lookup `v, ok := m[k]`: `some v` when `ok`, `none` otherwise. -/
def mapGet {κ ν : Type} [DecidableEq κ] : GoMap κ ν → κ → Option ν
  | [], _ => none
  | (k1, v) :: rest, k => if k1 = k then some v else mapGet rest k

/-- The builtin `delete(m, k)`. -/
def mapDelete {κ ν : Type} [DecidableEq κ] (m : GoMap κ ν) (k : κ) : GoMap κ ν :=
  m.filter (fun p => decide (p.1 ≠ k))

/-- The assignment `m[k] = v`. -/
def mapSet {κ ν : Type} [DecidableEq κ] (m : GoMap κ ν) (k : κ) (v : ν) : GoMap κ ν :=
  (k, v) :: mapDelete m k

/-- The keys that `for k := range m` visits. -/
def mapKeys {κ ν : Type} (m : GoMap κ ν) : List κ :=
  m.map Prod.fst

/-- The builtin `len(m)`. -/
def mapLen {κ ν : Type} (m : GoMap κ ν) : Nat :=
  m.length

/-! ## The wheel -/

/-- The three error values of the package. -/
inductive WheelError where
  | errDurationTooSmall
  | errInvalidDuration
  | errInvalidSlotCount
  deriving DecidableEq, Repr

/-- The type `itemCon`, a `map[Releaser]bool`. -/
abbrev itemCon (α : Type) := GoMap α Bool

/-- The type `slotCon`, a `[]itemCon`. -/
abbrev slotCon (α : Type) := List (itemCon α)

/-- The struct `TimingWheel`; `α` is the identity of a `Releaser`. -/
structure TimingWheel (α : Type) where
  stepTime : Int
  slots : slotCon α
  curIndex : Nat
  item2Idx : GoMap α Nat
  deriving DecidableEq, Repr

/-- Two's-complement wrap-around of an `int64` result. -/
def wrapInt64 (x : Int) : Int :=
  (x + 2 ^ 63) % 2 ^ 64 - 2 ^ 63

/-- The statements `slots := make(slotCon, n)` and the loop that stores a fresh
`make(itemCon)` in every position: `n` empty buckets.  The runtime panics when `n`
is negative or exceeds `maxLen`, the largest length it accepts for a `slotCon`. -/
def makeSlotCon (α : Type) (maxLen n : Int) : Option (slotCon α) :=
  if n < 0 ∨ maxLen < n then none else some (List.replicate n.toNat [])

/-- The value of `maxLen` for Go on linux/amd64: `2 ^ 45`, since a `slotCon`
element is one 8-byte word and the runtime allocates at most `2 ^ 48` bytes at once. -/
def maxLen64 : Int := 35184372088832

/-- The constructor `NewTimingWheel(max, slotCnt)`.  `max` is the `int64` behind
the `time.Duration`, `slotCnt` the `int`; Go's `/` and `%` truncate.  The result is
`some (Except.error e)` when an error is returned (and no wheel), `some (Except.ok tw)`
when a wheel is returned (and a nil error), and `none` when `make` panics. -/
def NewTimingWheel (α : Type) (maxLen max slotCnt : Int) :
    Option (Except WheelError (TimingWheel α)) :=
  if max ≤ 0 then
    some (Except.error WheelError.errInvalidDuration)
  else if slotCnt ≤ 0 then
    some (Except.error WheelError.errInvalidSlotCount)
  else
    let n := max
    let c := slotCnt
    if n < c then
      some (Except.error WheelError.errDurationTooSmall)
    else
      let s := Int.tdiv n c
      let s := if Int.tmod n c > 0 then wrapInt64 (s + 1) else s
      match makeSlotCon α maxLen slotCnt with
      | none => none
      | some slots =>
        some (Except.ok
          { stepTime := s
            slots := slots
            curIndex := 0
            item2Idx := [] })

/-- The statement `delete(slots[i], item)`; `none` when `i` is out of range. -/
def slotDelete {α : Type} [DecidableEq α] (slots : slotCon α) (i : Nat) (item : α) :
    Option (slotCon α) :=
  match slots[i]? with
  | none => none
  | some sl => some (slots.set i (mapDelete sl item))

/-- The statement `slots[i][item] = true`; `none` when `i` is out of range. -/
def slotInsert {α : Type} [DecidableEq α] (slots : slotCon α) (i : Nat) (item : α) :
    Option (slotCon α) :=
  match slots[i]? with
  | none => none
  | some sl => some (slots.set i (mapSet sl item true))

/-- The block guarded by `toAdd` in `AddItem`. -/
def addToCur {α : Type} [DecidableEq α] (tw : TimingWheel α) (slots : slotCon α) (item : α) :
    Option (TimingWheel α) :=
  match slotInsert slots tw.curIndex item with
  | none => none
  | some slots2 =>
    some { tw with slots := slots2, item2Idx := mapSet tw.item2Idx item tw.curIndex }

/-- The method `AddItem`. -/
def AddItem {α : Type} [DecidableEq α] (tw : TimingWheel α) (item : α) :
    Option (TimingWheel α) :=
  match mapGet tw.item2Idx item with
  | some i =>
    if i ≠ tw.curIndex then
      match slotDelete tw.slots i item with
      | none => none
      | some slots1 => addToCur tw slots1 item
    else
      some tw
  | none => addToCur tw tw.slots item

/-- The method `DelItem`. -/
def DelItem {α : Type} [DecidableEq α] (tw : TimingWheel α) (item : α) :
    Option (TimingWheel α) :=
  match mapGet tw.item2Idx item with
  | some i =>
    match slotDelete tw.slots i item with
    | none => none
    | some slots1 => some { tw with slots := slots1, item2Idx := mapDelete tw.item2Idx item }
  | none => some tw

/-- The loop `for k := range curSlot { delete(tw.item2Idx, k); k.Release() }`,
over the keys in visiting order: the index afterwards and the `Release` calls made. -/
def releaseLoop {α : Type} [DecidableEq α] : List α → GoMap α Nat → GoMap α Nat × List α
  | [], m => (m, [])
  | k :: ks, m =>
    let r := releaseLoop ks (mapDelete m k)
    (r.1, k :: r.2)

/-- The method `stepForward`: the wheel afterwards and the items whose `Release`
was called, in call order. -/
def stepForward {α : Type} [DecidableEq α] (tw : TimingWheel α) :
    Option (TimingWheel α × List α) :=
  let idx := if tw.curIndex + 1 ≥ tw.slots.length then 0 else tw.curIndex + 1
  match tw.slots[idx]? with
  | none => none
  | some curSlot =>
    let r := releaseLoop (mapKeys curSlot) tw.item2Idx
    some ({ tw with curIndex := idx, slots := tw.slots.set idx [], item2Idx := r.1 }, r.2)

/-- The method `itemCount`. -/
def itemCount {α : Type} (tw : TimingWheel α) : Nat :=
  mapLen tw.item2Idx

/-! ## Histories -/

/-- One call on the wheel. -/
inductive Op (α : Type) where
  | add (x : α)
  | del (x : α)
  | step
  deriving DecidableEq, Repr

/-- The effect of one call: the wheel afterwards and the `Release` calls it made. -/
def applyOp {α : Type} [DecidableEq α] (tw : TimingWheel α) : Op α → Option (TimingWheel α × List α)
  | Op.add x => (AddItem tw x).map (fun t => (t, []))
  | Op.del x => (DelItem tw x).map (fun t => (t, []))
  | Op.step => stepForward tw

/-- The effect of a sequence of calls: the final wheel and all `Release` calls. -/
def exec {α : Type} [DecidableEq α] (tw : TimingWheel α) : List (Op α) → Option (TimingWheel α × List α)
  | [] => some (tw, [])
  | op :: ops =>
    match applyOp tw op with
    | none => none
    | some (tw1, r1) =>
      match exec tw1 ops with
      | none => none
      | some (tw2, r2) => some (tw2, r1 ++ r2)

/-- The states a wheel built by `NewTimingWheel` can be in. -/
inductive Reachable {α : Type} [DecidableEq α] : TimingWheel α → Prop where
  | init (maxLen max slotCnt : Int) (tw : TimingWheel α) :
      NewTimingWheel α maxLen max slotCnt = some (Except.ok tw) → Reachable tw
  | add (tw tw1 : TimingWheel α) (x : α) :
      Reachable tw → AddItem tw x = some tw1 → Reachable tw1
  | del (tw tw1 : TimingWheel α) (x : α) :
      Reachable tw → DelItem tw x = some tw1 → Reachable tw1
  | step (tw tw1 : TimingWheel α) (rel : List α) :
      Reachable tw → stepForward tw = some (tw1, rel) → Reachable tw1

/-- The item `x` is tracked: it is a key of `item2Idx`. -/
def tracked {α : Type} [DecidableEq α] (tw : TimingWheel α) (x : α) : Prop :=
  mapGet tw.item2Idx x ≠ none

/-- The item `x` is a key of the bucket `slots[i]`. -/
def memSlot {α : Type} (slots : slotCon α) (i : Nat) (x : α) : Prop :=
  ∃ sl, slots[i]? = some sl ∧ x ∈ mapKeys sl

/-- The item `x` is a key of the bucket `tw.slots[i]`. -/
def inSlot {α : Type} (tw : TimingWheel α) (i : Nat) (x : α) : Prop :=
  memSlot tw.slots i x

/-- Every bucket is a map: no key occurs twice in it. -/
def slotsNodup {α : Type} (slots : slotCon α) : Prop :=
  ∀ (i : Nat) (sl : itemCon α), slots[i]? = some sl → (mapKeys sl).Nodup

/-- The representation invariant of the wheel: the cursor is a valid index, the
maps have no repeated key, and `item2Idx` and `slots` agree. -/
structure WF {α : Type} [DecidableEq α] (tw : TimingWheel α) : Prop where
  cur_lt : tw.curIndex < tw.slots.length
  slots_nodup : slotsNodup tw.slots
  idx_nodup : (mapKeys tw.item2Idx).Nodup
  consistent : ∀ x i, mapGet tw.item2Idx x = some i ↔ inSlot tw i x

/-- The number of tracked copies of `x`: `1` when `x` is a key of `item2Idx`, else `0`. -/
def trackedNat {α : Type} [DecidableEq α] (tw : TimingWheel α) (x : α) : Nat :=
  match mapGet tw.item2Idx x with
  | none => 0
  | some _ => 1

/-- The index that `stepForward` moves the cursor to. -/
def nextIndex {α : Type} (tw : TimingWheel α) : Nat :=
  if tw.curIndex + 1 ≥ tw.slots.length then 0 else tw.curIndex + 1

/-- The number of `stepForward` calls after which bucket `i` is drained. -/
def stepsUntil {α : Type} (tw : TimingWheel α) (i : Nat) : Nat :=
  if tw.curIndex < i then i - tw.curIndex else i + tw.slots.length - tw.curIndex

/-- The call `op` is `AddItem(x)` or `DelItem(x)`. -/
def touches {α : Type} [DecidableEq α] (x : α) : Op α → Bool
  | Op.add y => decide (y = x)
  | Op.del y => decide (y = x)
  | Op.step => false

/-- The call `op` is an `AddItem`. -/
def isAdd {α : Type} : Op α → Bool
  | Op.add _ => true
  | _ => false

/-- The number of `stepForward` calls in a history. -/
def stepCount {α : Type} : List (Op α) → Nat
  | [] => 0
  | Op.step :: ops => stepCount ops + 1
  | _ :: ops => stepCount ops

/-- The wheel that `NewTimingWheel(5ns, 5)` returns, over items named by numbers. -/
def wheel5 : TimingWheel Nat :=
  { stepTime := 1, slots := [[], [], [], [], []], curIndex := 0, item2Idx := [] }

/-- The wheel `wheel5` after `AddItem(0)` and four steps. -/
def wheel5a : TimingWheel Nat :=
  { stepTime := 1, slots := [[(0, true)], [], [], [], []], curIndex := 4, item2Idx := [(0, 0)] }

/-- The wheel `wheel5` after `AddItem(0)` and one step. -/
def wheel5b : TimingWheel Nat :=
  { stepTime := 1, slots := [[(0, true)], [], [], [], []], curIndex := 1, item2Idx := [(0, 0)] }

/-- The wheel `wheel5` after `AddItem(1)`, a step, `AddItem(2)` and `AddItem(1)`. -/
def wheel5c : TimingWheel Nat :=
  { stepTime := 1, slots := [[], [(1, true), (2, true)], [], [], []], curIndex := 1,
    item2Idx := [(1, 1), (2, 1)] }

/-- The largest `int64`, `math.MaxInt64`. -/
def maxInt64 : Int := 9223372036854775807

/-- A value in the range of `int64`. -/
def isInt64 (x : Int) : Prop :=
  -(2 ^ 63) ≤ x ∧ x < 2 ^ 63

/-! ## The observer -/

/-- The interface `Observer`: four hooks.  A hook acts on the observer's own state
`σ`; it has no access to the wheel. -/
structure Observer (σ : Type) where
  beforeStep : σ → σ
  afterStep : σ → σ
  afterRelease : σ → σ
  afterMove : σ → σ

/-- What a step with an observer does, in call order: `k.Release()` on an item, or
the hook `ob.afterRelease()`. -/
inductive Event (α : Type) where
  | release (x : α)
  | afterRelease
  deriving DecidableEq, Repr

/-- The loop `for k := range curSlot { delete(tw.item2Idx, k); k.Release();
ob.afterRelease() }`: the index afterwards, the calls made and the observer's state. -/
def releaseLoopWithObserver {α σ : Type} [DecidableEq α] (ob : Observer σ) :
    List α → GoMap α Nat → σ → GoMap α Nat × List (Event α) × σ
  | [], m, s => (m, [], s)
  | k :: ks, m, s =>
    let r := releaseLoopWithObserver ob ks (mapDelete m k) (ob.afterRelease s)
    (r.1, Event.release k :: Event.afterRelease :: r.2.1, r.2.2)

/-- The method `stepForwardWithObserver`: the wheel afterwards, the calls made in
order, and the observer's state afterwards. -/
def stepForwardWithObserver {α σ : Type} [DecidableEq α] (ob : Observer σ) (tw : TimingWheel α)
    (s : σ) : Option (TimingWheel α × List (Event α) × σ) :=
  let idx := if tw.curIndex + 1 ≥ tw.slots.length then 0 else tw.curIndex + 1
  match tw.slots[idx]? with
  | none => none
  | some curSlot =>
    let r := releaseLoopWithObserver ob (mapKeys curSlot) tw.item2Idx s
    some ({ tw with curIndex := idx, slots := tw.slots.set idx [], item2Idx := r.1 }, r.2.1, r.2.2)

/-- The items released in a sequence of calls, in order. -/
def releasesOf {α : Type} : List (Event α) → List α
  | [] => []
  | Event.release x :: es => x :: releasesOf es
  | Event.afterRelease :: es => releasesOf es

/-- The number of `afterRelease` calls in a sequence of calls. -/
def afterReleaseCount {α : Type} : List (Event α) → Nat
  | [] => 0
  | Event.release _ :: es => afterReleaseCount es
  | Event.afterRelease :: es => afterReleaseCount es + 1

/-- The calls of a step with an observer that releases `rel`: each release is
followed at once by one `afterRelease`. -/
def observedCalls {α : Type} : List α → List (Event α)
  | [] => []
  | k :: ks => Event.release k :: Event.afterRelease :: observedCalls ks

/-- The fields `step`, `releaseCnt` and `moveCnt` of the struct `wheelObserver`. -/
structure WheelObserverState where
  step : Nat
  releaseCnt : Nat
  moveCnt : Nat
  deriving DecidableEq, Repr

/-- The observer `wheelObserver` of the examples, with `afterStepNoOutput`. -/
def wheelObserver : Observer WheelObserverState :=
  { beforeStep := fun w => { step := w.step + 1, releaseCnt := 0, moveCnt := 0 }
    afterStep := fun w => w
    afterRelease := fun w => { w with releaseCnt := w.releaseCnt + 1 }
    afterMove := fun w => { w with moveCnt := w.moveCnt + 1 } }

/-! ## Counting -/

/-- The sum of the sizes of all buckets. -/
def slotTotal {α : Type} (tw : TimingWheel α) : Nat :=
  (tw.slots.map mapLen).sum

/-! ## Construction -/

/-- On a valid input the constructor returns the wheel written out here, or
panics in `make` when `slotCnt` exceeds `maxLen`. -/
theorem newTimingWheel_valid (α : Type) (maxLen max slotCnt : Int)
    (h1 : 0 < max) (h2 : 0 < slotCnt) (h3 : slotCnt ≤ max) :
    NewTimingWheel α maxLen max slotCnt =
      if maxLen < slotCnt then none
      else some (Except.ok
        { stepTime := if Int.tmod max slotCnt > 0 then wrapInt64 (Int.tdiv max slotCnt + 1)
            else Int.tdiv max slotCnt
          slots := List.replicate slotCnt.toNat []
          curIndex := 0
          item2Idx := [] }) := by
  unfold NewTimingWheel makeSlotCon
  have h4 : ¬ slotCnt < 0 := by omega
  by_cases h5 : maxLen < slotCnt
  · simp [not_le.mpr h1, not_le.mpr h2, not_lt.mpr h3, h5]
  · simp [not_le.mpr h1, not_le.mpr h2, not_lt.mpr h3, h4, h5]

/-- On an invalid input the constructor returns an error, whatever `maxLen` is. -/
theorem newTimingWheel_invalid (α : Type) (maxLen max slotCnt : Int)
    (h : ¬ (0 < max ∧ 0 < slotCnt ∧ slotCnt ≤ max)) :
    ∃ e, NewTimingWheel α maxLen max slotCnt = some (Except.error e) := by
  unfold NewTimingWheel
  by_cases h1 : max ≤ 0
  · exact ⟨WheelError.errInvalidDuration, by simp [h1]⟩
  · by_cases h2 : slotCnt ≤ 0
    · exact ⟨WheelError.errInvalidSlotCount, by simp [h1, h2]⟩
    · have h3 : max < slotCnt := by
        by_contra h3
        exact h ⟨by omega, by omega, by omega⟩
      exact ⟨WheelError.errDurationTooSmall, by simp [h1, h2, h3]⟩

theorem newTimingWheel_ok_iff (α : Type) (maxLen max slotCnt : Int) :
    (∃ tw, NewTimingWheel α maxLen max slotCnt = some (Except.ok tw)) ↔
      (0 < max ∧ 0 < slotCnt ∧ slotCnt ≤ max ∧ slotCnt ≤ maxLen) := by
  by_cases hv : 0 < max ∧ 0 < slotCnt ∧ slotCnt ≤ max
  · rw [newTimingWheel_valid α maxLen max slotCnt hv.1 hv.2.1 hv.2.2]
    by_cases h5 : maxLen < slotCnt
    · simp only [if_pos h5]
      constructor
      · rintro ⟨tw, e⟩
        cases e
      · intro hh
        omega
    · simp only [if_neg h5]
      exact ⟨fun _ => ⟨hv.1, hv.2.1, hv.2.2, by omega⟩, fun _ => ⟨_, rfl⟩⟩
  · obtain ⟨e, he⟩ := newTimingWheel_invalid α maxLen max slotCnt hv
    rw [he]
    constructor
    · rintro ⟨tw, e2⟩
      cases e2
    · intro hh
      exact absurd ⟨hh.1, hh.2.1, hh.2.2.1⟩ hv

theorem newTimingWheel_error_iff (α : Type) (maxLen max slotCnt : Int) :
    (∃ e, NewTimingWheel α maxLen max slotCnt = some (Except.error e)) ↔
      ¬ (0 < max ∧ 0 < slotCnt ∧ slotCnt ≤ max) := by
  constructor
  · rintro ⟨e, he⟩ hv
    rw [newTimingWheel_valid α maxLen max slotCnt hv.1 hv.2.1 hv.2.2] at he
    by_cases h5 : maxLen < slotCnt
    · rw [if_pos h5] at he
      cases he
    · rw [if_neg h5] at he
      cases he
  · exact newTimingWheel_invalid α maxLen max slotCnt

theorem newTimingWheel_panic_iff (α : Type) (maxLen max slotCnt : Int) :
    NewTimingWheel α maxLen max slotCnt = none ↔
      (0 < max ∧ 0 < slotCnt ∧ slotCnt ≤ max ∧ maxLen < slotCnt) := by
  by_cases hv : 0 < max ∧ 0 < slotCnt ∧ slotCnt ≤ max
  · rw [newTimingWheel_valid α maxLen max slotCnt hv.1 hv.2.1 hv.2.2]
    by_cases h5 : maxLen < slotCnt
    · simp only [if_pos h5]
      exact ⟨fun _ => ⟨hv.1, hv.2.1, hv.2.2, h5⟩, fun _ => trivial⟩
    · simp only [if_neg h5]
      constructor
      · intro e
        cases e
      · intro hh
        exact absurd hh.2.2.2 h5
  · obtain ⟨e, he⟩ := newTimingWheel_invalid α maxLen max slotCnt hv
    rw [he]
    constructor
    · intro e2
      cases e2
    · intro hh
      exact absurd ⟨hh.1, hh.2.1, hh.2.2.1⟩ hv

/-- The quotient and remainder of a valid input: `n = c * q + r` with `0 ≤ r < c`,
and `q + 1 ≤ n` whenever the remainder is positive. -/
theorem tdiv_tmod_facts (n c : Int) (hc : 0 < c) (hn : c ≤ n) :
    n = c * Int.tdiv n c + Int.tmod n c ∧ 0 ≤ Int.tmod n c ∧ Int.tmod n c < c ∧
      1 ≤ Int.tdiv n c ∧ Int.tdiv n c ≤ n ∧ (0 < Int.tmod n c → Int.tdiv n c + 1 ≤ n) := by
  have hn0 : 0 ≤ n := by omega
  rw [Int.tdiv_eq_ediv hn0 hc.le, Int.tmod_eq_emod hn0 hc.le]
  have h1 : c * (n / c) + n % c = n := Int.ediv_add_emod n c
  have h2 : 0 ≤ n % c := Int.emod_nonneg n (by omega)
  have h3 : n % c < c := Int.emod_lt_of_pos n hc
  have h4 : 1 ≤ n / c := by
    by_contra hlt
    have hq : n / c ≤ 0 := by omega
    have : c * (n / c) ≤ 0 := Int.mul_nonpos_of_nonneg_of_nonpos hc.le hq
    omega
  have h5 : n / c ≤ c * (n / c) := by nlinarith
  refine ⟨h1.symm, h2, h3, h4, by omega, ?_⟩
  intro hr
  have hc2 : 2 ≤ c := by omega
  have : 2 * (n / c) ≤ c * (n / c) := by nlinarith
  omega

/-! ## Lemmas on Go maps -/

section MapLemmas

variable {κ ν : Type} [DecidableEq κ]

theorem mapDelete_cons_eq (p : κ × ν) (rest : GoMap κ ν) (k : κ) (h : p.1 = k) :
    mapDelete (p :: rest) k = mapDelete rest k := by
  simp [mapDelete, h]

theorem mapDelete_cons_ne (p : κ × ν) (rest : GoMap κ ν) (k : κ) (h : p.1 ≠ k) :
    mapDelete (p :: rest) k = p :: mapDelete rest k := by
  simp [mapDelete, h]

theorem mapGet_cons_eq (k1 : κ) (v : ν) (rest : GoMap κ ν) (k : κ) (h : k1 = k) :
    mapGet ((k1, v) :: rest) k = some v := by
  simp [mapGet, h]

theorem mapGet_cons_ne (k1 : κ) (v : ν) (rest : GoMap κ ν) (k : κ) (h : k1 ≠ k) :
    mapGet ((k1, v) :: rest) k = mapGet rest k := by
  simp [mapGet, h]

theorem mapGet_delete_self (m : GoMap κ ν) (k : κ) : mapGet (mapDelete m k) k = none := by
  induction m with
  | nil => rfl
  | cons p rest ih =>
    obtain ⟨k1, v⟩ := p
    by_cases h : k1 = k
    · rw [mapDelete_cons_eq _ _ _ h]; exact ih
    · rw [mapDelete_cons_ne _ _ _ h, mapGet_cons_ne _ _ _ _ h]; exact ih

theorem mapGet_delete_ne (m : GoMap κ ν) (k k2 : κ) (hne : k2 ≠ k) :
    mapGet (mapDelete m k) k2 = mapGet m k2 := by
  induction m with
  | nil => rfl
  | cons p rest ih =>
    obtain ⟨k1, v⟩ := p
    by_cases h : k1 = k
    · have h2 : k1 ≠ k2 := fun e => hne (e ▸ h)
      rw [mapDelete_cons_eq _ _ _ h, mapGet_cons_ne _ _ _ _ h2]; exact ih
    · rw [mapDelete_cons_ne _ _ _ h]
      by_cases h2 : k1 = k2
      · rw [mapGet_cons_eq _ _ _ _ h2, mapGet_cons_eq _ _ _ _ h2]
      · rw [mapGet_cons_ne _ _ _ _ h2, mapGet_cons_ne _ _ _ _ h2]; exact ih

theorem mapGet_set_self (m : GoMap κ ν) (k : κ) (v : ν) : mapGet (mapSet m k v) k = some v := by
  simp [mapSet, mapGet]

theorem mapGet_set_ne (m : GoMap κ ν) (k k2 : κ) (v : ν) (hne : k2 ≠ k) :
    mapGet (mapSet m k v) k2 = mapGet m k2 := by
  have h : k ≠ k2 := fun e => hne e.symm
  simp [mapSet, mapGet, h, mapGet_delete_ne m k k2 hne]

theorem mem_mapKeys_iff (m : GoMap κ ν) (k : κ) : k ∈ mapKeys m ↔ mapGet m k ≠ none := by
  induction m with
  | nil => simp [mapKeys, mapGet]
  | cons p rest ih =>
    obtain ⟨k1, v⟩ := p
    by_cases h : k1 = k
    · simp [mapKeys, mapGet, h]
    · have h2 : k ≠ k1 := fun e => h e.symm
      simpa [mapKeys, mapGet, h, h2] using ih

theorem mapKeys_delete (m : GoMap κ ν) (k : κ) :
    mapKeys (mapDelete m k) = (mapKeys m).filter (fun a => decide (a ≠ k)) := by
  induction m with
  | nil => rfl
  | cons p rest ih =>
    obtain ⟨k1, v⟩ := p
    by_cases h : k1 = k
    · simpa [mapKeys, mapDelete, List.filter_cons, h] using ih
    · simpa [mapKeys, mapDelete, List.filter_cons, h] using ih

theorem mem_mapKeys_delete (m : GoMap κ ν) (k k2 : κ) :
    k2 ∈ mapKeys (mapDelete m k) ↔ k2 ∈ mapKeys m ∧ k2 ≠ k := by
  rw [mapKeys_delete]
  simp [List.mem_filter]

theorem mem_mapKeys_set (m : GoMap κ ν) (k k2 : κ) (v : ν) :
    k2 ∈ mapKeys (mapSet m k v) ↔ k2 = k ∨ k2 ∈ mapKeys m := by
  have h := mem_mapKeys_delete m k k2
  have hk : mapKeys (mapSet m k v) = k :: mapKeys (mapDelete m k) := rfl
  rw [hk, List.mem_cons, h]
  by_cases e : k2 = k <;> simp [e]

theorem nodup_mapKeys_delete (m : GoMap κ ν) (k : κ) (h : (mapKeys m).Nodup) :
    (mapKeys (mapDelete m k)).Nodup := by
  rw [mapKeys_delete]
  exact h.filter _

theorem nodup_mapKeys_set (m : GoMap κ ν) (k : κ) (v : ν) (h : (mapKeys m).Nodup) :
    (mapKeys (mapSet m k v)).Nodup := by
  have hk : mapKeys (mapSet m k v) = k :: mapKeys (mapDelete m k) := rfl
  rw [hk, List.nodup_cons]
  refine ⟨?_, nodup_mapKeys_delete m k h⟩
  rw [mem_mapKeys_delete]
  exact fun hh => hh.2 rfl

theorem mapDelete_of_not_mem (m : GoMap κ ν) (k : κ) (h : mapGet m k = none) :
    mapDelete m k = m := by
  induction m with
  | nil => rfl
  | cons p rest ih =>
    obtain ⟨k1, v⟩ := p
    by_cases e : k1 = k
    · rw [mapGet_cons_eq _ _ _ _ e] at h
      cases h
    · rw [mapGet_cons_ne _ _ _ _ e] at h
      rw [mapDelete_cons_ne _ _ _ e, ih h]

end MapLemmas

/-! ## Lemmas on the release loop -/

section LoopLemmas

variable {α : Type} [DecidableEq α]

theorem releaseLoop_log (ks : List α) (m : GoMap α Nat) : (releaseLoop ks m).2 = ks := by
  induction ks generalizing m with
  | nil => rfl
  | cons k ks ih => simp [releaseLoop, ih]

theorem releaseLoop_get (ks : List α) (m : GoMap α Nat) (y : α) :
    mapGet (releaseLoop ks m).1 y = if y ∈ ks then none else mapGet m y := by
  induction ks generalizing m with
  | nil => simp [releaseLoop]
  | cons k ks ih =>
    simp only [releaseLoop, ih, List.mem_cons]
    by_cases h1 : y ∈ ks
    · simp [h1]
    · by_cases h2 : y = k
      · subst h2
        simp [h1, mapGet_delete_self]
      · simp [h1, h2, mapGet_delete_ne m k y h2]

theorem releaseLoop_nodup (ks : List α) (m : GoMap α Nat) (h : (mapKeys m).Nodup) :
    (mapKeys (releaseLoop ks m).1).Nodup := by
  induction ks generalizing m with
  | nil => simpa [releaseLoop] using h
  | cons k ks ih =>
    simp only [releaseLoop]
    exact ih _ (nodup_mapKeys_delete m k h)

end LoopLemmas

/-! ## Lemmas on buckets -/

section SlotLemmas

variable {α : Type}

theorem memSlot_set (slots : slotCon α) (i : Nat) (sl1 : itemCon α) (hi : i < slots.length)
    (j : Nat) (y : α) :
    memSlot (slots.set i sl1) j y ↔ (j = i ∧ y ∈ mapKeys sl1) ∨ (j ≠ i ∧ memSlot slots j y) := by
  unfold memSlot
  rw [List.getElem?_set]
  by_cases h : i = j
  · subst h
    simp [hi]
  · have h2 : j ≠ i := fun e => h e.symm
    simp [h, h2]

theorem slotsNodup_set (slots : slotCon α) (i : Nat) (sl1 : itemCon α)
    (h : slotsNodup slots) (h1 : (mapKeys sl1).Nodup) : slotsNodup (slots.set i sl1) := by
  intro j sl hj
  rw [List.getElem?_set] at hj
  by_cases e : i = j
  · rw [if_pos e] at hj
    by_cases hl : i < slots.length
    · rw [if_pos hl] at hj
      cases hj
      exact h1
    · rw [if_neg hl] at hj
      cases hj
  · rw [if_neg e] at hj
    exact h j sl hj

theorem memSlot_of_getElem (slots : slotCon α) (i : Nat) (sl : itemCon α)
    (h : slots[i]? = some sl) (y : α) : memSlot slots i y ↔ y ∈ mapKeys sl := by
  unfold memSlot
  constructor
  · rintro ⟨sl2, h2, hy⟩
    rw [h] at h2
    cases h2
    exact hy
  · intro hy
    exact ⟨sl, h, hy⟩

theorem memSlot_lt (slots : slotCon α) (i : Nat) (y : α) (h : memSlot slots i y) :
    i < slots.length := by
  obtain ⟨sl, hsl, _⟩ := h
  by_contra hn
  rw [List.getElem?_eq_none (by omega)] at hsl
  cases hsl

theorem getElem_of_lt (slots : slotCon α) (i : Nat) (h : i < slots.length) :
    ∃ sl, slots[i]? = some sl :=
  ⟨slots[i], List.getElem?_eq_getElem h⟩

theorem nextIndex_lt (tw : TimingWheel α) (h : tw.curIndex < tw.slots.length) :
    nextIndex tw < tw.slots.length := by
  unfold nextIndex
  split <;> omega

theorem nextIndex_eq_mod (tw : TimingWheel α) (h : tw.curIndex < tw.slots.length) :
    nextIndex tw = (tw.curIndex + 1) % tw.slots.length := by
  unfold nextIndex
  split
  · have e : tw.curIndex + 1 = tw.slots.length := by omega
    rw [e, Nat.mod_self]
  · rw [Nat.mod_eq_of_lt (by omega)]

theorem stepsUntil_facts (tw tw1 : TimingWheel α) (i : Nat)
    (hc : tw.curIndex < tw.slots.length) (hi : i < tw.slots.length)
    (h1 : tw1.curIndex = nextIndex tw) (h2 : tw1.slots.length = tw.slots.length) :
    (stepsUntil tw i = 1 ↔ i = nextIndex tw) ∧
      (i ≠ nextIndex tw → stepsUntil tw1 i + 1 = stepsUntil tw i) ∧
      1 ≤ stepsUntil tw i ∧ stepsUntil tw i ≤ tw.slots.length := by
  unfold stepsUntil
  rw [h1, h2]
  unfold nextIndex
  split_ifs <;> omega

theorem stepsUntil_cur (tw : TimingWheel α) : stepsUntil tw tw.curIndex = tw.slots.length := by
  unfold stepsUntil
  simp

theorem stepsUntil_congr (tw tw1 : TimingWheel α) (i : Nat)
    (h1 : tw1.curIndex = tw.curIndex) (h2 : tw1.slots.length = tw.slots.length) :
    stepsUntil tw1 i = stepsUntil tw i := by
  unfold stepsUntil
  rw [h1, h2]

theorem stepsUntil_pos (tw : TimingWheel α) (i : Nat) (hc : tw.curIndex < tw.slots.length) :
    1 ≤ stepsUntil tw i := by
  unfold stepsUntil
  split <;> omega

theorem stepsUntil_le (tw : TimingWheel α) (i : Nat) (hc : tw.curIndex < tw.slots.length)
    (hi : i < tw.slots.length) : stepsUntil tw i ≤ tw.slots.length := by
  unfold stepsUntil
  split <;> omega

theorem not_add_mem_of_isAdd (ops : List (Op α)) (h : ∀ op ∈ ops, isAdd op = false) (x : α) :
    Op.add x ∉ ops := by
  intro hm
  have := h _ hm
  simp [isAdd] at this

end SlotLemmas

/-! ## The invariant is established and preserved -/

section Invariant

variable {α : Type} [DecidableEq α]

/-- The `toAdd` block, run on buckets from which `x` has been removed. -/
theorem addToCur_spec (tw : TimingWheel α) (slots1 : slotCon α) (x : α) (h : WF tw)
    (hlen : slots1.length = tw.slots.length) (hnd : slotsNodup slots1)
    (hmem : ∀ j y, memSlot slots1 j y ↔ memSlot tw.slots j y ∧ y ≠ x) :
    ∃ tw1, addToCur tw slots1 x = some tw1 ∧ WF tw1 ∧ tw1.curIndex = tw.curIndex ∧
      tw1.slots.length = tw.slots.length ∧ tw1.stepTime = tw.stepTime ∧
      mapGet tw1.item2Idx x = some tw.curIndex ∧
      ∀ y, y ≠ x → mapGet tw1.item2Idx y = mapGet tw.item2Idx y := by
  have hcur : tw.curIndex < slots1.length := by rw [hlen]; exact h.cur_lt
  obtain ⟨sl, hsl⟩ := getElem_of_lt slots1 tw.curIndex hcur
  refine ⟨{ tw with slots := slots1.set tw.curIndex (mapSet sl x true),
                    item2Idx := mapSet tw.item2Idx x tw.curIndex }, ?_, ?_, rfl, ?_, rfl, ?_, ?_⟩
  · simp [addToCur, slotInsert, hsl]
  · refine ⟨?_, ?_, ?_, ?_⟩
    · simp only [List.length_set]
      exact hcur
    · exact slotsNodup_set _ _ _ hnd (nodup_mapKeys_set _ _ _ (hnd _ _ hsl))
    · exact nodup_mapKeys_set _ _ _ h.idx_nodup
    · intro y i
      show mapGet (mapSet tw.item2Idx x tw.curIndex) y = some i ↔
        memSlot (slots1.set tw.curIndex (mapSet sl x true)) i y
      rw [memSlot_set _ _ _ hcur, mem_mapKeys_set]
      by_cases hy : y = x
      · subst hy
        rw [mapGet_set_self]
        have hno : ¬ memSlot slots1 i y := fun hm => ((hmem i y).1 hm).2 rfl
        constructor
        · intro e
          cases e
          exact Or.inl ⟨rfl, Or.inl rfl⟩
        · rintro (⟨e, _⟩ | ⟨_, hm⟩)
          · rw [e]
          · exact absurd hm hno
      · rw [mapGet_set_ne _ _ _ _ hy, h.consistent y i]
        show memSlot tw.slots i y ↔ _
        have h1 := hmem i y
        have h2 := memSlot_of_getElem slots1 tw.curIndex sl hsl y
        constructor
        · intro hm
          have hm1 : memSlot slots1 i y := h1.2 ⟨hm, hy⟩
          by_cases e : i = tw.curIndex
          · subst e
            exact Or.inl ⟨rfl, Or.inr (h2.1 hm1)⟩
          · exact Or.inr ⟨e, hm1⟩
        · rintro (⟨e, hh⟩ | ⟨_, hm⟩)
          · rcases hh with hh | hh
            · exact absurd hh hy
            · subst e
              exact (h1.1 (h2.2 hh)).1
          · exact (h1.1 hm).1
  · simp only [List.length_set]
    exact hlen
  · exact mapGet_set_self _ _ _
  · intro y hy
    exact mapGet_set_ne _ _ _ _ hy

/-- The method `AddItem` on a well-formed wheel: it returns, keeps the invariant,
records `x` at the cursor and leaves every other item alone. -/
theorem AddItem_spec (tw : TimingWheel α) (x : α) (h : WF tw) :
    ∃ tw1, AddItem tw x = some tw1 ∧ WF tw1 ∧ tw1.curIndex = tw.curIndex ∧
      tw1.slots.length = tw.slots.length ∧ tw1.stepTime = tw.stepTime ∧
      mapGet tw1.item2Idx x = some tw.curIndex ∧
      ∀ y, y ≠ x → mapGet tw1.item2Idx y = mapGet tw.item2Idx y := by
  cases hg : mapGet tw.item2Idx x with
  | none =>
    have hno : ∀ j, ¬ memSlot tw.slots j x := by
      intro j hm
      have := (h.consistent x j).2 hm
      rw [hg] at this
      cases this
    obtain ⟨tw1, h1, h2⟩ := addToCur_spec tw tw.slots x h rfl h.slots_nodup (by
      intro j y
      constructor
      · intro hm
        refine ⟨hm, ?_⟩
        intro e
        subst e
        exact hno j hm
      · exact fun hm => hm.1)
    exact ⟨tw1, by simp [AddItem, hg, h1], h2⟩
  | some i =>
    by_cases hi : i = tw.curIndex
    · subst hi
      exact ⟨tw, by simp [AddItem, hg], h, rfl, rfl, rfl, hg, fun _ _ => rfl⟩
    · have hm : memSlot tw.slots i x := (h.consistent x i).1 hg
      have hlt := memSlot_lt _ _ _ hm
      obtain ⟨sl, hsl⟩ := getElem_of_lt tw.slots i hlt
      obtain ⟨tw1, h1, h2⟩ := addToCur_spec tw (tw.slots.set i (mapDelete sl x)) x h
        (by simp) (slotsNodup_set _ _ _ h.slots_nodup
          (nodup_mapKeys_delete _ _ (h.slots_nodup _ _ hsl))) (by
        intro j y
        rw [memSlot_set _ _ _ hlt, mem_mapKeys_delete]
        have hsl2 := memSlot_of_getElem tw.slots i sl hsl y
        constructor
        · rintro (⟨e, hy, hne⟩ | ⟨e, hm2⟩)
          · subst e
            exact ⟨hsl2.2 hy, hne⟩
          · refine ⟨hm2, ?_⟩
            intro e2
            subst e2
            have a := (h.consistent y j).2 hm2
            rw [hg] at a
            cases a
            exact e rfl
        · rintro ⟨hm2, hne⟩
          by_cases e : j = i
          · subst e
            exact Or.inl ⟨rfl, hsl2.1 hm2, hne⟩
          · exact Or.inr ⟨e, hm2⟩)
      exact ⟨tw1, by simp [AddItem, hg, hi, slotDelete, hsl, h1], h2⟩

/-- The method `DelItem` on a well-formed wheel: it returns, keeps the invariant,
forgets `x` and leaves every other item alone. -/
theorem DelItem_spec (tw : TimingWheel α) (x : α) (h : WF tw) :
    ∃ tw1, DelItem tw x = some tw1 ∧ WF tw1 ∧ tw1.curIndex = tw.curIndex ∧
      tw1.slots.length = tw.slots.length ∧ tw1.stepTime = tw.stepTime ∧
      mapGet tw1.item2Idx x = none ∧
      ∀ y, y ≠ x → mapGet tw1.item2Idx y = mapGet tw.item2Idx y := by
  cases hg : mapGet tw.item2Idx x with
  | none =>
    exact ⟨tw, by simp [DelItem, hg], h, rfl, rfl, rfl, hg, fun _ _ => rfl⟩
  | some i =>
    have hm : memSlot tw.slots i x := (h.consistent x i).1 hg
    have hlt := memSlot_lt _ _ _ hm
    obtain ⟨sl, hsl⟩ := getElem_of_lt tw.slots i hlt
    refine ⟨{ tw with slots := tw.slots.set i (mapDelete sl x),
                      item2Idx := mapDelete tw.item2Idx x }, ?_, ?_, rfl, ?_, rfl, ?_, ?_⟩
    · simp [DelItem, hg, slotDelete, hsl]
    · refine ⟨?_, ?_, ?_, ?_⟩
      · simp only [List.length_set]
        exact h.cur_lt
      · exact slotsNodup_set _ _ _ h.slots_nodup
          (nodup_mapKeys_delete _ _ (h.slots_nodup _ _ hsl))
      · exact nodup_mapKeys_delete _ _ h.idx_nodup
      · intro y j
        show mapGet (mapDelete tw.item2Idx x) y = some j ↔
          memSlot (tw.slots.set i (mapDelete sl x)) j y
        rw [memSlot_set _ _ _ hlt, mem_mapKeys_delete]
        have hsl2 := memSlot_of_getElem tw.slots i sl hsl y
        by_cases hy : y = x
        · subst hy
          rw [mapGet_delete_self]
          constructor
          · intro e
            cases e
          · rintro (⟨_, _, hne⟩ | ⟨e, hm2⟩)
            · exact absurd rfl hne
            · have a := (h.consistent y j).2 hm2
              rw [hg] at a
              cases a
              exact absurd rfl e
        · rw [mapGet_delete_ne _ _ _ hy, h.consistent y j]
          show memSlot tw.slots j y ↔ _
          constructor
          · intro hm2
            by_cases e : j = i
            · subst e
              exact Or.inl ⟨rfl, hsl2.1 hm2, hy⟩
            · exact Or.inr ⟨e, hm2⟩
          · rintro (⟨e, hy2, _⟩ | ⟨_, hm2⟩)
            · subst e
              exact hsl2.2 hy2
            · exact hm2
    · simp only [List.length_set]
    · exact mapGet_delete_self _ _
    · intro y hy
      exact mapGet_delete_ne _ _ _ hy

/-- The method `stepForward` on a well-formed wheel: it returns, keeps the
invariant, moves the cursor to `nextIndex`, and releases (once each) exactly the
items recorded at that index, which it forgets. -/
theorem stepForward_spec (tw : TimingWheel α) (h : WF tw) :
    ∃ tw1 rel, stepForward tw = some (tw1, rel) ∧ WF tw1 ∧ tw1.curIndex = nextIndex tw ∧
      tw1.slots.length = tw.slots.length ∧ tw1.stepTime = tw.stepTime ∧ rel.Nodup ∧
      (∀ y, y ∈ rel ↔ mapGet tw.item2Idx y = some (nextIndex tw)) ∧
      ∀ y, mapGet tw1.item2Idx y = if y ∈ rel then none else mapGet tw.item2Idx y := by
  have hlt := nextIndex_lt tw h.cur_lt
  obtain ⟨sl, hsl⟩ := getElem_of_lt tw.slots (nextIndex tw) hlt
  have hrel : ∀ y, y ∈ mapKeys sl ↔ mapGet tw.item2Idx y = some (nextIndex tw) := by
    intro y
    rw [h.consistent y (nextIndex tw)]
    exact (memSlot_of_getElem tw.slots _ sl hsl y).symm
  refine ⟨{ tw with curIndex := nextIndex tw, slots := tw.slots.set (nextIndex tw) [],
                    item2Idx := (releaseLoop (mapKeys sl) tw.item2Idx).1 },
    mapKeys sl, ?_, ?_, rfl, ?_, rfl, h.slots_nodup _ _ hsl, hrel, ?_⟩
  · have e : tw.slots[if tw.curIndex + 1 ≥ tw.slots.length then 0 else tw.curIndex + 1]? =
        some sl := hsl
    simp only [stepForward, e, releaseLoop_log]
    rfl
  · refine ⟨?_, ?_, ?_, ?_⟩
    · simp only [List.length_set]
      exact hlt
    · exact slotsNodup_set _ _ _ h.slots_nodup List.nodup_nil
    · exact releaseLoop_nodup _ _ h.idx_nodup
    · intro y j
      show mapGet (releaseLoop (mapKeys sl) tw.item2Idx).1 y = some j ↔
        memSlot (tw.slots.set (nextIndex tw) []) j y
      rw [releaseLoop_get, memSlot_set _ _ _ hlt]
      by_cases hy : y ∈ mapKeys sl
      · rw [if_pos hy]
        have hy2 := (hrel y).1 hy
        constructor
        · intro e
          cases e
        · rintro (⟨_, hh⟩ | ⟨e, hm⟩)
          · simp [mapKeys] at hh
          · have a := (h.consistent y j).2 hm
            rw [hy2] at a
            cases a
            exact absurd rfl e
      · rw [if_neg hy, h.consistent y j]
        show memSlot tw.slots j y ↔ _
        constructor
        · intro hm
          by_cases e : j = nextIndex tw
          · subst e
            exact absurd ((memSlot_of_getElem tw.slots _ sl hsl y).1 hm) hy
          · exact Or.inr ⟨e, hm⟩
        · rintro (⟨_, hh⟩ | ⟨_, hm⟩)
          · simp [mapKeys] at hh
          · exact hm
  · simp only [List.length_set]
  · intro y
    exact releaseLoop_get _ _ y

/-- A freshly constructed wheel satisfies the invariant, has `slotCnt` buckets and
tracks nothing. -/
theorem WF_init (maxLen max slotCnt : Int) (tw : TimingWheel α)
    (h : NewTimingWheel α maxLen max slotCnt = some (Except.ok tw)) :
    WF tw ∧ (tw.slots.length : Int) = slotCnt ∧ tw.curIndex = 0 ∧ tw.item2Idx = [] ∧
      tw.slots = List.replicate slotCnt.toNat [] := by
  have hv := (newTimingWheel_ok_iff α maxLen max slotCnt).1 ⟨tw, h⟩
  rw [newTimingWheel_valid α maxLen max slotCnt hv.1 hv.2.1 hv.2.2.1,
    if_neg (not_lt.mpr hv.2.2.2)] at h
  cases h
  refine ⟨⟨?_, ?_, ?_, ?_⟩, ?_, rfl, rfl, rfl⟩
  · simp only [List.length_replicate]
    omega
  · intro i sl hi
    rw [List.getElem?_replicate] at hi
    split at hi
    · cases hi
      exact List.nodup_nil
    · cases hi
  · exact List.nodup_nil
  · intro x i
    constructor
    · intro e
      cases e
    · rintro ⟨sl, hi, hx⟩
      simp only at hi
      rw [List.getElem?_replicate] at hi
      split at hi
      · cases hi
        simp [mapKeys] at hx
      · cases hi
  · simp only [List.length_replicate]
    omega

theorem Reachable.wf {tw : TimingWheel α} (h : Reachable tw) : WF tw := by
  induction h with
  | init maxLen max slotCnt tw h0 => exact (WF_init maxLen max slotCnt tw h0).1
  | add tw tw1 x _ h1 ih =>
    obtain ⟨tw2, e, hw, _⟩ := AddItem_spec tw x ih
    rw [h1] at e
    cases e
    exact hw
  | del tw tw1 x _ h1 ih =>
    obtain ⟨tw2, e, hw, _⟩ := DelItem_spec tw x ih
    rw [h1] at e
    cases e
    exact hw
  | step tw tw1 rel _ h1 ih =>
    obtain ⟨tw2, rel2, e, hw, _⟩ := stepForward_spec tw ih
    rw [h1] at e
    cases e
    exact hw

/-! ## Histories on a well-formed wheel -/

theorem exec_cons_of (tw tw1 tw2 : TimingWheel α) (op : Op α) (ops : List (Op α))
    (r1 r2 : List α) (h1 : applyOp tw op = some (tw1, r1)) (h2 : exec tw1 ops = some (tw2, r2)) :
    exec tw (op :: ops) = some (tw2, r1 ++ r2) := by
  simp [exec, h1, h2]

theorem applyOp_add_of (tw tw1 : TimingWheel α) (x : α) (h : AddItem tw x = some tw1) :
    applyOp tw (Op.add x) = some (tw1, []) := by
  simp [applyOp, h]

theorem applyOp_del_of (tw tw1 : TimingWheel α) (x : α) (h : DelItem tw x = some tw1) :
    applyOp tw (Op.del x) = some (tw1, []) := by
  simp [applyOp, h]

theorem exec_cons_inv (tw tw2 : TimingWheel α) (op : Op α) (ops : List (Op α)) (log : List α)
    (h : exec tw (op :: ops) = some (tw2, log)) :
    ∃ t r r2, applyOp tw op = some (t, r) ∧ exec t ops = some (tw2, r2) ∧ log = r ++ r2 := by
  simp only [exec] at h
  cases ha : applyOp tw op with
  | none => simp [ha] at h
  | some p =>
    obtain ⟨t, r⟩ := p
    cases hb : exec t ops with
    | none => simp [ha, hb] at h
    | some q =>
      obtain ⟨t2, r3⟩ := q
      simp only [ha, hb, Option.some.injEq, Prod.mk.injEq] at h
      exact ⟨t, r, r3, rfl, by rw [hb, h.1], h.2.symm⟩

theorem exec_append_of (tw tw1 tw2 : TimingWheel α) (a b : List (Op α)) (r1 r2 : List α)
    (h1 : exec tw a = some (tw1, r1)) (h2 : exec tw1 b = some (tw2, r2)) :
    exec tw (a ++ b) = some (tw2, r1 ++ r2) := by
  induction a generalizing tw r1 with
  | nil =>
    simp only [exec] at h1
    cases h1
    simpa using h2
  | cons op a ih =>
    obtain ⟨t, r, r3, ha, hb, e⟩ := exec_cons_inv tw tw1 op a r1 h1
    subst e
    have := ih t r3 hb
    rw [List.cons_append, exec_cons_of tw t tw2 op (a ++ b) r (r3 ++ r2) ha this,
      List.append_assoc]

/-- Every history runs to completion on a well-formed wheel (no call panics) and
ends in a well-formed wheel with as many buckets. -/
theorem exec_total (ops : List (Op α)) (tw : TimingWheel α) (h : WF tw) :
    ∃ tw1 log, exec tw ops = some (tw1, log) ∧ WF tw1 ∧
      tw1.slots.length = tw.slots.length := by
  induction ops generalizing tw with
  | nil => exact ⟨tw, [], rfl, h, rfl⟩
  | cons op ops ih =>
    cases op with
    | add y =>
      obtain ⟨t, e, hw, _, hl, _⟩ := AddItem_spec tw y h
      obtain ⟨t2, l2, e2, hw2, hl2⟩ := ih t hw
      exact ⟨t2, [] ++ l2, exec_cons_of _ _ _ _ _ _ _ (applyOp_add_of _ _ _ e) e2, hw2,
        hl2.trans hl⟩
    | del y =>
      obtain ⟨t, e, hw, _, hl, _⟩ := DelItem_spec tw y h
      obtain ⟨t2, l2, e2, hw2, hl2⟩ := ih t hw
      exact ⟨t2, [] ++ l2, exec_cons_of _ _ _ _ _ _ _ (applyOp_del_of _ _ _ e) e2, hw2,
        hl2.trans hl⟩
    | step =>
      obtain ⟨t, rel, e, hw, _, hl, _⟩ := stepForward_spec tw h
      obtain ⟨t2, l2, e2, hw2, hl2⟩ := ih t hw
      exact ⟨t2, rel ++ l2, exec_cons_of _ _ _ _ _ _ _ e e2, hw2, hl2.trans hl⟩

theorem exec_reachable (ops : List (Op α)) (tw tw1 : TimingWheel α) (log : List α)
    (h : Reachable tw) (he : exec tw ops = some (tw1, log)) : Reachable tw1 := by
  induction ops generalizing tw log with
  | nil =>
    simp only [exec] at he
    cases he
    exact h
  | cons op ops ih =>
    obtain ⟨t, r, r3, ha, hb, _⟩ := exec_cons_inv tw tw1 op ops log he
    refine ih t r3 ?_ hb
    cases op with
    | add y =>
      cases hy : AddItem tw y with
      | none => simp [applyOp, hy] at ha
      | some u =>
        simp only [applyOp, hy, Option.map_some', Option.some.injEq, Prod.mk.injEq] at ha
        rw [← ha.1]
        exact Reachable.add tw u y h hy
    | del y =>
      cases hy : DelItem tw y with
      | none => simp [applyOp, hy] at ha
      | some u =>
        simp only [applyOp, hy, Option.map_some', Option.some.injEq, Prod.mk.injEq] at ha
        rw [← ha.1]
        exact Reachable.del tw u y h hy
    | step => exact Reachable.step tw t r h ha

/-- An item recorded at index `i` outlives every history that does not add or
cancel it and has fewer steps than bucket `i` is away from being drained. -/
theorem survive (x : α) (i : Nat) (ops : List (Op α)) (tw : TimingWheel α) (h : WF tw)
    (hx : mapGet tw.item2Idx x = some i) (hfree : ∀ op ∈ ops, touches x op = false)
    (hsteps : stepCount ops < stepsUntil tw i) :
    ∃ tw1 log, exec tw ops = some (tw1, log) ∧ WF tw1 ∧ x ∉ log ∧
      mapGet tw1.item2Idx x = some i ∧ stepsUntil tw1 i + stepCount ops = stepsUntil tw i ∧
      tw1.slots.length = tw.slots.length := by
  induction ops generalizing tw with
  | nil => exact ⟨tw, [], rfl, h, by simp, hx, by simp [stepCount], rfl⟩
  | cons op ops ih =>
    have hfree2 : ∀ o ∈ ops, touches x o = false := fun o ho => hfree o (List.mem_cons_of_mem _ ho)
    have hop := hfree op (List.mem_cons_self _ _)
    cases op with
    | add y =>
      have hne : x ≠ y := by
        intro e
        simp [touches, e] at hop
      obtain ⟨t, e, hw, hc, hl, _, _, hoth⟩ := AddItem_spec tw y h
      have hxt : mapGet t.item2Idx x = some i := by rw [hoth x hne]; exact hx
      have hsu := stepsUntil_congr tw t i hc hl
      obtain ⟨t2, l2, e2, hw2, hn2, hx2, hs2, hl2⟩ := ih t hw hxt hfree2 (by
        rw [hsu]; simpa [stepCount] using hsteps)
      refine ⟨t2, [] ++ l2, exec_cons_of _ _ _ _ _ _ _ (applyOp_add_of _ _ _ e) e2, hw2,
        by simpa using hn2, hx2, ?_, hl2.trans hl⟩
      rw [← hsu]
      simpa [stepCount] using hs2
    | del y =>
      have hne : x ≠ y := by
        intro e
        simp [touches, e] at hop
      obtain ⟨t, e, hw, hc, hl, _, _, hoth⟩ := DelItem_spec tw y h
      have hxt : mapGet t.item2Idx x = some i := by rw [hoth x hne]; exact hx
      have hsu := stepsUntil_congr tw t i hc hl
      obtain ⟨t2, l2, e2, hw2, hn2, hx2, hs2, hl2⟩ := ih t hw hxt hfree2 (by
        rw [hsu]; simpa [stepCount] using hsteps)
      refine ⟨t2, [] ++ l2, exec_cons_of _ _ _ _ _ _ _ (applyOp_del_of _ _ _ e) e2, hw2,
        by simpa using hn2, hx2, ?_, hl2.trans hl⟩
      rw [← hsu]
      simpa [stepCount] using hs2
    | step =>
      obtain ⟨t, rel, e, hw, hc, hl, _, _, hrel, hget⟩ := stepForward_spec tw h
      have hi : i < tw.slots.length := memSlot_lt _ _ _ ((h.consistent x i).1 hx)
      obtain ⟨f1, f2, _, _⟩ := stepsUntil_facts tw t i h.cur_lt hi hc hl
      have hsc : stepCount (Op.step :: ops) = stepCount ops + 1 := rfl
      rw [hsc] at hsteps
      have hne : i ≠ nextIndex tw := by
        intro e2
        have := f1.2 e2
        omega
      have hnr : x ∉ rel := by
        intro hm
        have := (hrel x).1 hm
        rw [hx] at this
        cases this
        exact hne rfl
      have hxt : mapGet t.item2Idx x = some i := by rw [hget x, if_neg hnr]; exact hx
      have f3 := f2 hne
      obtain ⟨t2, l2, e2, hw2, hn2, hx2, hs2, hl2⟩ := ih t hw hxt hfree2 (by omega)
      refine ⟨t2, rel ++ l2, exec_cons_of _ _ _ _ _ _ _ e e2, hw2, ?_, hx2, ?_, hl2.trans hl⟩
      · simp [hnr, hn2]
      · rw [hsc]
        omega

/-- The step that reaches the bucket of a recorded item releases it exactly once
and forgets it. -/
theorem expire (x : α) (i : Nat) (tw : TimingWheel α) (h : WF tw)
    (hx : mapGet tw.item2Idx x = some i) (hone : stepsUntil tw i = 1) :
    ∃ tw1 rel, stepForward tw = some (tw1, rel) ∧ WF tw1 ∧ rel.count x = 1 ∧
      mapGet tw1.item2Idx x = none := by
  obtain ⟨t, rel, e, hw, hc, hl, _, hnd, hrel, hget⟩ := stepForward_spec tw h
  have hi : i < tw.slots.length := memSlot_lt _ _ _ ((h.consistent x i).1 hx)
  obtain ⟨f1, _, _, _⟩ := stepsUntil_facts tw t i h.cur_lt hi hc hl
  have hin : x ∈ rel := (hrel x).2 (by rw [hx, f1.1 hone])
  exact ⟨t, rel, e, hw, List.count_eq_one_of_mem hnd hin, by rw [hget x, if_pos hin]⟩

/-- An untracked item stays untracked, and is never released, along every history
that does not add it. -/
theorem untracked_stays (x : α) (ops : List (Op α)) (tw : TimingWheel α) (h : WF tw)
    (hx : mapGet tw.item2Idx x = none) (hno : Op.add x ∉ ops) :
    ∃ tw1 log, exec tw ops = some (tw1, log) ∧ WF tw1 ∧ x ∉ log ∧
      mapGet tw1.item2Idx x = none := by
  induction ops generalizing tw with
  | nil => exact ⟨tw, [], rfl, h, by simp, hx⟩
  | cons op ops ih =>
    have hno2 : Op.add x ∉ ops := fun hm => hno (List.mem_cons_of_mem _ hm)
    have hop : Op.add x ≠ op := fun e => hno (e ▸ List.mem_cons_self _ _)
    cases op with
    | add y =>
      have hne : x ≠ y := fun e => hop (by rw [e])
      obtain ⟨t, e, hw, _, _, _, _, hoth⟩ := AddItem_spec tw y h
      obtain ⟨t2, l2, e2, hw2, hn2, hx2⟩ := ih t hw (by rw [hoth x hne]; exact hx) hno2
      exact ⟨t2, [] ++ l2, exec_cons_of _ _ _ _ _ _ _ (applyOp_add_of _ _ _ e) e2, hw2,
        by simpa using hn2, hx2⟩
    | del y =>
      obtain ⟨t, e, hw, _, _, _, hself, hoth⟩ := DelItem_spec tw y h
      have hxt : mapGet t.item2Idx x = none := by
        by_cases hne : x = y
        · rw [hne]; exact hself
        · rw [hoth x hne]; exact hx
      obtain ⟨t2, l2, e2, hw2, hn2, hx2⟩ := ih t hw hxt hno2
      exact ⟨t2, [] ++ l2, exec_cons_of _ _ _ _ _ _ _ (applyOp_del_of _ _ _ e) e2, hw2,
        by simpa using hn2, hx2⟩
    | step =>
      obtain ⟨t, rel, e, hw, _, _, _, _, hrel, hget⟩ := stepForward_spec tw h
      have hnr : x ∉ rel := by
        intro hm
        have := (hrel x).1 hm
        rw [hx] at this
        cases this
      have hxt : mapGet t.item2Idx x = none := by rw [hget x, if_neg hnr]; exact hx
      obtain ⟨t2, l2, e2, hw2, hn2, hx2⟩ := ih t hw hxt hno2
      exact ⟨t2, rel ++ l2, exec_cons_of _ _ _ _ _ _ _ e e2, hw2, by simp [hnr, hn2], hx2⟩

/-- The lifetime of an item after `AddItem`, on a well-formed wheel. -/
theorem expiry_core (tw : TimingWheel α) (h : WF tw) (x : α) (ops : List (Op α))
    (hfree : ∀ op ∈ ops, touches x op = false) (hsteps : stepCount ops < tw.slots.length) :
    ∃ tw1 log, exec tw (Op.add x :: ops) = some (tw1, log) ∧ WF tw1 ∧
      tw1.slots.length = tw.slots.length ∧ tracked tw1 x ∧ x ∉ log ∧
      (stepCount ops + 1 = tw.slots.length →
        ∃ tw2 rel, stepForward tw1 = some (tw2, rel) ∧ rel.count x = 1 ∧ ¬ tracked tw2 x) := by
  obtain ⟨t, e, hw, hc, hl, _, hx, _⟩ := AddItem_spec tw x h
  have hsu : stepsUntil t tw.curIndex = tw.slots.length := by
    rw [← hc, stepsUntil_cur, hl]
  obtain ⟨t2, l2, e2, hw2, hn2, hx2, hs2, hl2⟩ := survive x tw.curIndex ops t hw hx hfree
    (by rw [hsu]; exact hsteps)
  refine ⟨t2, [] ++ l2, exec_cons_of _ _ _ _ _ _ _ (applyOp_add_of _ _ _ e) e2, hw2,
    hl2.trans hl, ?_, by simpa using hn2, ?_⟩
  · unfold tracked
    rw [hx2]
    exact Option.some_ne_none _
  · intro hN
    obtain ⟨t3, rel, e3, _, hcnt, hnone⟩ := expire x tw.curIndex t2 hw2 hx2 (by omega)
    exact ⟨t3, rel, e3, hcnt, fun ht => ht hnone⟩

/-- Along every history from a well-formed wheel, the releases of `x` plus its
tracked copies at the end are bounded by the `AddItem(x)` calls plus its tracked
copies at the start. -/
theorem release_bound (x : α) (ops : List (Op α)) (tw : TimingWheel α) (h : WF tw) :
    ∃ tw1 log, exec tw ops = some (tw1, log) ∧ WF tw1 ∧
      log.count x + trackedNat tw1 x ≤ ops.count (Op.add x) + trackedNat tw x := by
  induction ops generalizing tw with
  | nil => exact ⟨tw, [], rfl, h, by simp⟩
  | cons op ops ih =>
    cases op with
    | add y =>
      obtain ⟨t, e, hw, _, _, _, hself, hoth⟩ := AddItem_spec tw y h
      obtain ⟨t2, l2, e2, hw2, hb⟩ := ih t hw
      refine ⟨t2, [] ++ l2, exec_cons_of _ _ _ _ _ _ _ (applyOp_add_of _ _ _ e) e2, hw2, ?_⟩
      by_cases hy : y = x
      · subst hy
        have h1 : trackedNat t y = 1 := by simp [trackedNat, hself]
        have h2 : (Op.add y :: ops).count (Op.add y) = ops.count (Op.add y) + 1 := by simp
        rw [h2, List.nil_append]
        omega
      · have hxy : x ≠ y := fun e3 => hy e3.symm
        have h1 : trackedNat t x = trackedNat tw x := by simp [trackedNat, hoth x hxy]
        have h2 : (Op.add y :: ops).count (Op.add x) = ops.count (Op.add x) := by
          rw [List.count_cons]
          simp [hy]
        rw [h2, List.nil_append]
        omega
    | del y =>
      obtain ⟨t, e, hw, _, _, _, hself, hoth⟩ := DelItem_spec tw y h
      obtain ⟨t2, l2, e2, hw2, hb⟩ := ih t hw
      refine ⟨t2, [] ++ l2, exec_cons_of _ _ _ _ _ _ _ (applyOp_del_of _ _ _ e) e2, hw2, ?_⟩
      have h1 : trackedNat t x ≤ trackedNat tw x := by
        by_cases hy : x = y
        · subst hy
          simp [trackedNat, hself]
        · simp [trackedNat, hoth x hy]
      have h2 : (Op.del y :: ops).count (Op.add x) = ops.count (Op.add x) := by
        rw [List.count_cons]
        simp
      rw [h2, List.nil_append]
      omega
    | step =>
      obtain ⟨t, rel, e, hw, _, _, _, hnd, hrel, hget⟩ := stepForward_spec tw h
      obtain ⟨t2, l2, e2, hw2, hb⟩ := ih t hw
      refine ⟨t2, rel ++ l2, exec_cons_of _ _ _ _ _ _ _ e e2, hw2, ?_⟩
      have h1 : rel.count x + trackedNat t x = trackedNat tw x := by
        by_cases hm : x ∈ rel
        · have a := List.count_eq_one_of_mem hnd hm
          have b : trackedNat t x = 0 := by simp [trackedNat, hget x, hm]
          have c : trackedNat tw x = 1 := by simp [trackedNat, (hrel x).1 hm]
          omega
        · have a : rel.count x = 0 := List.count_eq_zero_of_not_mem hm
          have b : trackedNat t x = trackedNat tw x := by simp [trackedNat, hget x, hm]
          omega
      have h2 : (Op.step :: ops).count (Op.add x) = ops.count (Op.add x) := by
        rw [List.count_cons]
        simp
      rw [h2, List.count_append]
      omega

end Invariant

/-! ## The life of an item -/

section Lifetime

variable {α : Type} [DecidableEq α]

/-- C1: expiry rule.  On a reachable wheel with `N` buckets, after `AddItem(x)` and any
history that neither adds nor cancels `x` and holds fewer than `N` steps, the history
has run without releasing `x` and `x` is still tracked; when the history holds
exactly `N - 1` steps, the next `stepForward` (the `N`-th) releases `x` exactly once
and leaves it untracked. -/
theorem C1_expiry_rule (tw : TimingWheel α) (h : Reachable tw) (x : α) (ops : List (Op α))
    (hfree : ∀ op ∈ ops, touches x op = false) (hsteps : stepCount ops < tw.slots.length) :
    ∃ tw1 log, exec tw (Op.add x :: ops) = some (tw1, log) ∧ tracked tw1 x ∧ x ∉ log ∧
      (stepCount ops + 1 = tw.slots.length →
        ∃ tw2 rel, stepForward tw1 = some (tw2, rel) ∧ rel.count x = 1 ∧ ¬ tracked tw2 x) := by
  obtain ⟨tw1, log, e, _, _, ht, hn, hlast⟩ := expiry_core tw h.wf x ops hfree hsteps
  exact ⟨tw1, log, e, ht, hn, hlast⟩

/-- Witness for C1: `N = 5`, add item `0`, four steps: still tracked, nothing
released; the fifth step releases it and the tracked count is `0`. -/
theorem C1_expiry_rule_witness :
    ∃ tw1 log, exec wheel5 [Op.add 0, Op.step, Op.step, Op.step, Op.step] = some (tw1, log) ∧
      tracked tw1 0 ∧ 0 ∉ log ∧
      ∃ tw2 rel, stepForward tw1 = some (tw2, rel) ∧ rel.count 0 = 1 ∧ ¬ tracked tw2 0 ∧
        itemCount tw2 = 0 := by
  obtain ⟨tw1, log, h1, h2, h3, h4⟩ := C1_expiry_rule wheel5 (Reachable.init maxLen64 5 5 _ rfl) 0
    [Op.step, Op.step, Op.step, Op.step] (by decide) (by decide)
  obtain ⟨tw2, rel, h5, h6, h7⟩ := h4 rfl
  refine ⟨tw1, log, h1, h2, h3, tw2, rel, h5, h6, h7, ?_⟩
  have c1 : exec wheel5 [Op.add 0, Op.step, Op.step, Op.step, Op.step] = some (wheel5a, []) := by
    decide
  rw [c1] at h1
  cases h1
  have c2 : stepForward wheel5a = some (wheel5, [0]) := by decide
  rw [c2] at h5
  cases h5
  rfl

/-- C2: refresh rule.  On a reachable wheel with `N` buckets: after `AddItem(x)`, a
history with `k < N` steps (not adding or cancelling `x`) and a second `AddItem(x)`,
every further history without `AddItem(x)`/`DelItem(x)` and with fewer than `N`
steps runs without releasing `x` and leaves it tracked; when it holds exactly
`N - 1` steps, the next `stepForward` (the `N`-th after the refresh) releases `x`
exactly once. -/
theorem C2_refresh_rule (tw : TimingWheel α) (h : Reachable tw) (x : α)
    (ops1 ops2 : List (Op α))
    (hfree1 : ∀ op ∈ ops1, touches x op = false) (hfree2 : ∀ op ∈ ops2, touches x op = false)
    (hk : stepCount ops1 < tw.slots.length) (hsteps : stepCount ops2 < tw.slots.length) :
    ∃ tw1 log1 tw2 log2, exec tw (Op.add x :: ops1) = some (tw1, log1) ∧
      exec tw1 (Op.add x :: ops2) = some (tw2, log2) ∧
      exec tw (Op.add x :: (ops1 ++ Op.add x :: ops2)) = some (tw2, log1 ++ log2) ∧
      x ∉ log1 ∧ x ∉ log2 ∧ tracked tw2 x ∧
      (stepCount ops2 + 1 = tw.slots.length →
        ∃ tw3 rel, stepForward tw2 = some (tw3, rel) ∧ rel.count x = 1 ∧ ¬ tracked tw3 x) := by
  obtain ⟨tw1, log1, e1, hw1, hl1, _, hn1, _⟩ := expiry_core tw h.wf x ops1 hfree1 hk
  obtain ⟨tw2, log2, e2, _, _, ht2, hn2, hlast⟩ := expiry_core tw1 hw1 x ops2 hfree2
    (by rw [hl1]; exact hsteps)
  refine ⟨tw1, log1, tw2, log2, e1, e2, ?_, hn1, hn2, ht2, ?_⟩
  · have := exec_append_of tw tw1 tw2 (Op.add x :: ops1) (Op.add x :: ops2) log1 log2 e1 e2
    simpa using this
  · intro hN
    exact hlast (by rw [hl1]; exact hN)

/-- Witness for C2: `N = 5`, add item `0`, two steps, add it again: it survives
steps 3, 4, 5 and 6 and step 7 releases it. -/
theorem C2_refresh_rule_witness :
    ∃ tw1 log1 tw2 log2, exec wheel5 [Op.add 0, Op.step, Op.step] = some (tw1, log1) ∧
      exec tw1 [Op.add 0, Op.step, Op.step, Op.step, Op.step] = some (tw2, log2) ∧
      exec wheel5 [Op.add 0, Op.step, Op.step, Op.add 0, Op.step, Op.step, Op.step, Op.step] =
        some (tw2, log1 ++ log2) ∧
      0 ∉ log1 ∧ 0 ∉ log2 ∧ tracked tw2 0 ∧
      ∃ tw3 rel, stepForward tw2 = some (tw3, rel) ∧ rel.count 0 = 1 ∧ ¬ tracked tw3 0 := by
  obtain ⟨tw1, log1, tw2, log2, h1, h2, h3, h4, h5, h6, h7⟩ :=
    C2_refresh_rule wheel5 (Reachable.init maxLen64 5 5 _ rfl) 0 [Op.step, Op.step]
      [Op.step, Op.step, Op.step, Op.step] (by decide) (by decide) (by decide) (by decide)
  exact ⟨tw1, log1, tw2, log2, h1, h2, h3, h4, h5, h6, h7 rfl⟩

/-- C3: cancel rule.  On a reachable wheel, `DelItem(x)` returns without any
`Release` call, afterwards `x` is neither a key of `item2Idx` nor in any bucket,
and every later history without `AddItem(x)` runs without releasing `x`. -/
theorem C3_cancel_rule (tw : TimingWheel α) (h : Reachable tw) (x : α) (ops : List (Op α))
    (hno : Op.add x ∉ ops) :
    ∃ tw1, DelItem tw x = some tw1 ∧ applyOp tw (Op.del x) = some (tw1, []) ∧
      mapGet tw1.item2Idx x = none ∧ (∀ i, ¬ inSlot tw1 i x) ∧
      ∃ tw2 log, exec tw1 ops = some (tw2, log) ∧ x ∉ log ∧ ¬ tracked tw2 x := by
  obtain ⟨tw1, e, hw, _, _, _, hx, _⟩ := DelItem_spec tw x h.wf
  obtain ⟨tw2, log, e2, _, hn2, hx2⟩ := untracked_stays x ops tw1 hw hx hno
  refine ⟨tw1, e, applyOp_del_of _ _ _ e, hx, ?_, tw2, log, e2, hn2, fun ht => ht hx2⟩
  intro i hm
  have := (hw.consistent x i).2 hm
  rw [hx] at this
  cases this

/-- Witness for C3: item `0` is added, cancelled after one step, and seven more
steps (with traffic on item `1`) never release it. -/
theorem C3_cancel_rule_witness :
    exec wheel5 [Op.add 0, Op.step] = some (wheel5b, []) ∧
      ∃ tw1, DelItem wheel5b 0 = some tw1 ∧ applyOp wheel5b (Op.del 0) = some (tw1, []) ∧
        mapGet tw1.item2Idx 0 = none ∧ (∀ i, ¬ inSlot tw1 i 0) ∧
        ∃ tw2 log, exec tw1 [Op.step, Op.add 1, Op.step, Op.step, Op.step, Op.step, Op.step,
            Op.step] = some (tw2, log) ∧ 0 ∉ log ∧ ¬ tracked tw2 0 :=
  ⟨by decide,
    C3_cancel_rule wheel5b (exec_reachable [Op.add 0, Op.step] wheel5 wheel5b []
      (Reachable.init maxLen64 5 5 _ rfl) (by decide)) 0 _ (by decide)⟩

/-- C4: mutual consistency.  In every reachable state, `item2Idx[x] = i` if and only
if `x` is a key of `slots[i]`; hence every tracked item is in exactly one bucket,
the one at its recorded index, and occurs there once. -/
theorem C4_mutual_consistency (tw : TimingWheel α) (h : Reachable tw) :
    (∀ x i, mapGet tw.item2Idx x = some i ↔ inSlot tw i x) ∧
      ∀ x, tracked tw x →
        ∃ i sl, mapGet tw.item2Idx x = some i ∧ tw.slots[i]? = some sl ∧
          (mapKeys sl).count x = 1 ∧ ∀ j, inSlot tw j x → j = i := by
  have hw := h.wf
  refine ⟨hw.consistent, ?_⟩
  intro x ht
  cases hg : mapGet tw.item2Idx x with
  | none => exact absurd hg ht
  | some i =>
    obtain ⟨sl, hsl, hx⟩ := (hw.consistent x i).1 hg
    refine ⟨i, sl, rfl, hsl, List.count_eq_one_of_mem (hw.slots_nodup i sl hsl) hx, ?_⟩
    intro j hj
    have := (hw.consistent x j).2 hj
    rw [hg] at this
    cases this
    rfl

/-- Witness for C4, on the state reached by adding items `1` and `2` around a step
and refreshing `1`. -/
theorem C4_mutual_consistency_witness :
    exec wheel5 [Op.add 1, Op.step, Op.add 2, Op.add 1] = some (wheel5c, []) ∧
      (∀ x i, mapGet wheel5c.item2Idx x = some i ↔ inSlot wheel5c i x) ∧
      ∀ x, tracked wheel5c x →
        ∃ i sl, mapGet wheel5c.item2Idx x = some i ∧ wheel5c.slots[i]? = some sl ∧
          (mapKeys sl).count x = 1 ∧ ∀ j, inSlot wheel5c j x → j = i :=
  ⟨by decide,
    C4_mutual_consistency wheel5c
      (exec_reachable [Op.add 1, Op.step, Op.add 2, Op.add 1] wheel5 wheel5c []
        (Reachable.init maxLen64 5 5 _ rfl) (by decide))⟩

/-- C5: release happens at most once per tracked lifetime and only through a step.
For every history `pre` run on a fresh wheel: it runs to completion and the number
of releases of `x` is at most the number of `AddItem(x)` calls in it; in the state
reached, `AddItem` and `DelItem` return without any `Release` call; a `stepForward`
there releases `x` at most once; and if that step and a later step, after the
history `mid`, both release `x`, then `mid` contains `AddItem(x)`. -/
theorem C5_release_at_most_once (maxLen max slotCnt : Int) (tw0 : TimingWheel α)
    (hnew : NewTimingWheel α maxLen max slotCnt = some (Except.ok tw0)) (x : α) (pre mid : List (Op α)) :
    ∃ tw log, exec tw0 pre = some (tw, log) ∧ log.count x ≤ pre.count (Op.add x) ∧
      (∀ y, ∃ t, applyOp tw (Op.add y) = some (t, [])) ∧
      (∀ y, ∃ t, applyOp tw (Op.del y) = some (t, [])) ∧
      ∃ tw1 rel1, stepForward tw = some (tw1, rel1) ∧ rel1.count x ≤ 1 ∧
        ∃ tw2 log2, exec tw1 mid = some (tw2, log2) ∧
          ∃ tw3 rel3, stepForward tw2 = some (tw3, rel3) ∧
            (x ∈ rel1 → x ∈ rel3 → Op.add x ∈ mid) := by
  obtain ⟨hw0, _, _, hempty, _⟩ := WF_init maxLen max slotCnt tw0 hnew
  obtain ⟨tw, log, e, hw, hb⟩ := release_bound x pre tw0 hw0
  have ht0 : trackedNat tw0 x = 0 := by simp [trackedNat, hempty, mapGet]
  obtain ⟨tw1, rel1, e1, hw1, _, _, _, hnd1, _, hget1⟩ := stepForward_spec tw hw
  obtain ⟨tw2, log2, e2, hw2, _⟩ := exec_total mid tw1 hw1
  obtain ⟨tw3, rel3, e3, _, _, _, _, _, hrel3, _⟩ := stepForward_spec tw2 hw2
  refine ⟨tw, log, e, by omega, ?_, ?_, tw1, rel1, e1, ?_, tw2, log2, e2, tw3, rel3, e3, ?_⟩
  · intro y
    obtain ⟨t, et, _⟩ := AddItem_spec tw y hw
    exact ⟨t, applyOp_add_of _ _ _ et⟩
  · intro y
    obtain ⟨t, et, _⟩ := DelItem_spec tw y hw
    exact ⟨t, applyOp_del_of _ _ _ et⟩
  · by_cases hm : x ∈ rel1
    · exact (List.count_eq_one_of_mem hnd1 hm).le
    · rw [List.count_eq_zero_of_not_mem hm]
      exact Nat.zero_le 1
  · intro hm1 hm3
    by_contra hno
    have hx1 : mapGet tw1.item2Idx x = none := by rw [hget1 x, if_pos hm1]
    obtain ⟨t2, l2, e2b, _, _, hx2⟩ := untracked_stays x mid tw1 hw1 hx1 hno
    rw [e2] at e2b
    cases e2b
    have := (hrel3 x).1 hm3
    rw [hx2] at this
    cases this

/-- Witness for C5: on the wheel of `NewTimingWheel(5ns, 5)`, item `0` is added and
four steps run; the fifth step releases it, and so does the step after a second
`AddItem(0)` and four more steps. -/
theorem C5_release_at_most_once_witness :
    ∃ tw log, exec wheel5 [Op.add 0, Op.step, Op.step, Op.step, Op.step] = some (tw, log) ∧
      log.count 0 ≤ [Op.add 0, Op.step, Op.step, Op.step, Op.step].count (Op.add 0) ∧
      (∀ y, ∃ t, applyOp tw (Op.add y) = some (t, [])) ∧
      (∀ y, ∃ t, applyOp tw (Op.del y) = some (t, [])) ∧
      ∃ tw1 rel1, stepForward tw = some (tw1, rel1) ∧ rel1.count 0 ≤ 1 ∧
        ∃ tw2 log2, exec tw1 [Op.add 0, Op.step, Op.step, Op.step, Op.step] = some (tw2, log2) ∧
          ∃ tw3 rel3, stepForward tw2 = some (tw3, rel3) ∧
            (0 ∈ rel1 → 0 ∈ rel3 →
              Op.add 0 ∈ [Op.add 0, Op.step, Op.step, Op.step, Op.step]) :=
  C5_release_at_most_once maxLen64 5 5 wheel5 rfl 0 [Op.add 0, Op.step, Op.step, Op.step, Op.step]
    [Op.add 0, Op.step, Op.step, Op.step, Op.step]

/-- C10: `AddItem` is idempotent.  On a reachable wheel, `AddItem(x)` returns a wheel
on which a second `AddItem(x)` changes nothing (same `slots`, `curIndex` and
`item2Idx`); in it `x` is recorded at the cursor, is a key of `slots[curIndex]`, of
no other bucket, and occurs once in that bucket and once in `item2Idx`; and on a
state with `item2Idx[x] = curIndex` the first `AddItem(x)` already changes nothing. -/
theorem C10_addItem_idempotent (tw : TimingWheel α) (h : Reachable tw) (x : α) :
    ∃ tw1, AddItem tw x = some tw1 ∧ AddItem tw1 x = some tw1 ∧
      exec tw [Op.add x, Op.add x] = exec tw [Op.add x] ∧
      tw1.curIndex = tw.curIndex ∧ mapGet tw1.item2Idx x = some tw1.curIndex ∧
      (∃ sl, tw1.slots[tw1.curIndex]? = some sl ∧ (mapKeys sl).count x = 1) ∧
      (∀ j, inSlot tw1 j x → j = tw1.curIndex) ∧
      (mapKeys tw1.item2Idx).count x = 1 ∧
      (mapGet tw.item2Idx x = some tw.curIndex → AddItem tw x = some tw) := by
  obtain ⟨tw1, e, hw, hc, _, _, hx, _⟩ := AddItem_spec tw x h.wf
  have hx1 : mapGet tw1.item2Idx x = some tw1.curIndex := by rw [hc]; exact hx
  have e2 : AddItem tw1 x = some tw1 := by simp [AddItem, hx1]
  obtain ⟨sl, hsl, hmem⟩ := (hw.consistent x tw1.curIndex).1 hx1
  refine ⟨tw1, e, e2, ?_, hc, hx1,
    ⟨sl, hsl, List.count_eq_one_of_mem (hw.slots_nodup _ _ hsl) hmem⟩, ?_, ?_, ?_⟩
  · simp [exec, applyOp, e, e2]
  · intro j hj
    have := (hw.consistent x j).2 hj
    rw [hx1] at this
    cases this
    rfl
  · apply List.count_eq_one_of_mem hw.idx_nodup
    rw [mem_mapKeys_iff, hx1]
    exact Option.some_ne_none _
  · intro hcur
    simp [AddItem, hcur]

/-- Witness for C10: on the wheel where item `0` sits one bucket behind the cursor,
`AddItem(0)` moves it to the cursor and a second `AddItem(0)` changes nothing. -/
theorem C10_addItem_idempotent_witness :
    ∃ tw1, AddItem wheel5b 0 = some tw1 ∧ AddItem tw1 0 = some tw1 ∧
      exec wheel5b [Op.add 0, Op.add 0] = exec wheel5b [Op.add 0] ∧
      tw1.curIndex = wheel5b.curIndex ∧ mapGet tw1.item2Idx 0 = some tw1.curIndex ∧
      (∃ sl, tw1.slots[tw1.curIndex]? = some sl ∧ (mapKeys sl).count 0 = 1) ∧
      (∀ j, inSlot tw1 j 0 → j = tw1.curIndex) ∧
      (mapKeys tw1.item2Idx).count 0 = 1 ∧
      (mapGet wheel5b.item2Idx 0 = some wheel5b.curIndex → AddItem wheel5b 0 = some wheel5b) :=
  C10_addItem_idempotent wheel5b
    (exec_reachable [Op.add 0, Op.step] wheel5 wheel5b [] (Reachable.init maxLen64 5 5 _ rfl) (by decide)) 0

end Lifetime

/-! ## The effect of a single call -/

section Effects

variable {α : Type} [DecidableEq α]

theorem set_eq_self {β : Type} (l : List β) (i : Nat) (a : β) (h : l[i]? = some a) :
    l.set i a = l := by
  induction l generalizing i with
  | nil => rfl
  | cons b l ih =>
    cases i with
    | zero =>
      simp only [List.getElem?_cons_zero, Option.some.injEq] at h
      simp [h]
    | succ n =>
      simp only [List.getElem?_cons_succ] at h
      simp [ih n h]

/-- The result of `stepForward`, written out, when the cursor is a valid index. -/
theorem stepForward_eq (tw : TimingWheel α) (h : tw.curIndex < tw.slots.length) :
    ∃ sl, tw.slots[nextIndex tw]? = some sl ∧
      stepForward tw =
        some ({ tw with curIndex := nextIndex tw, slots := tw.slots.set (nextIndex tw) [],
                        item2Idx := (releaseLoop (mapKeys sl) tw.item2Idx).1 }, mapKeys sl) := by
  obtain ⟨sl, hsl⟩ := getElem_of_lt tw.slots (nextIndex tw) (nextIndex_lt tw h)
  refine ⟨sl, hsl, ?_⟩
  have e : tw.slots[if tw.curIndex + 1 ≥ tw.slots.length then 0 else tw.curIndex + 1]? =
      some sl := hsl
  simp only [stepForward, e, releaseLoop_log]
  rfl

theorem eq_nil_of_mapGet_none {ν : Type} (m : GoMap α ν) (h : ∀ k, mapGet m k = none) :
    m = [] := by
  cases m with
  | nil => rfl
  | cons p rest =>
    obtain ⟨k, v⟩ := p
    have := h k
    rw [mapGet_cons_eq k v rest k rfl] at this
    cases this

theorem mapGet_of_mem {ν : Type} (m : GoMap α ν) (k : α) (v : ν) (hnd : (mapKeys m).Nodup)
    (h : (k, v) ∈ m) : mapGet m k = some v := by
  induction m with
  | nil => cases h
  | cons p rest ih =>
    obtain ⟨k1, v1⟩ := p
    have hnd2 : k1 ∉ mapKeys rest ∧ (mapKeys rest).Nodup := List.nodup_cons.1 hnd
    rcases List.mem_cons.1 h with e | hm
    · cases e
      exact mapGet_cons_eq _ _ _ _ rfl
    · have hne : k1 ≠ k := by
        intro e
        subst e
        exact hnd2.1 (List.mem_map.2 ⟨(k1, v), hm, rfl⟩)
      rw [mapGet_cons_ne _ _ _ _ hne]
      exact ih hnd2.2 hm

/-- The state that `AddItem` returns has the index written out. -/
theorem AddItem_item2Idx (tw tw1 : TimingWheel α) (x : α) (h : AddItem tw x = some tw1) :
    tw1.item2Idx =
      if mapGet tw.item2Idx x = some tw.curIndex then tw.item2Idx
      else mapSet tw.item2Idx x tw.curIndex := by
  have hadd : ∀ sl0 : slotCon α, addToCur tw sl0 x = some tw1 →
      tw1.item2Idx = mapSet tw.item2Idx x tw.curIndex := by
    intro sl0 h0
    unfold addToCur at h0
    cases hs : slotInsert sl0 tw.curIndex x with
    | none => simp [hs] at h0
    | some s2 =>
      simp only [hs, Option.some.injEq] at h0
      rw [← h0]
  unfold AddItem at h
  cases hg : mapGet tw.item2Idx x with
  | none =>
    simp only [hg] at h
    rw [if_neg (by simp)]
    exact hadd _ h
  | some i =>
    simp only [hg] at h
    by_cases hi : i = tw.curIndex
    · simp only [hi, ne_eq, not_true_eq_false, if_false, Option.some.injEq] at h
      rw [hi, if_pos rfl, h]
    · simp only [ne_eq, hi, not_false_eq_true, if_true] at h
      rw [if_neg (by simpa using hi)]
      cases hd : slotDelete tw.slots i x with
      | none => simp [hd] at h
      | some s1 =>
        simp only [hd] at h
        exact hadd _ h

/-- The state that `DelItem` returns has the index written out. -/
theorem DelItem_item2Idx (tw tw1 : TimingWheel α) (x : α) (h : DelItem tw x = some tw1) :
    tw1.item2Idx = mapDelete tw.item2Idx x := by
  unfold DelItem at h
  cases hg : mapGet tw.item2Idx x with
  | none =>
    simp only [hg, Option.some.injEq] at h
    rw [← h, mapDelete_of_not_mem _ _ hg]
  | some i =>
    simp only [hg] at h
    cases hd : slotDelete tw.slots i x with
    | none => simp [hd] at h
    | some s1 =>
      simp only [hd, Option.some.injEq] at h
      rw [← h]

/-- C11: cancelling an untracked item is a no-op.  On every state (reachable or
not) in which `x` is not a key of `item2Idx`, `DelItem(x)` returns normally with
the very same `slots`, `curIndex` and `item2Idx`, and no `Release` call. -/
theorem C11_cancel_untracked_noop (tw : TimingWheel α) (x : α)
    (h : mapGet tw.item2Idx x = none) :
    DelItem tw x = some tw ∧ applyOp tw (Op.del x) = some (tw, []) ∧
      exec tw [Op.del x] = some (tw, []) := by
  have e : DelItem tw x = some tw := by simp [DelItem, h]
  exact ⟨e, by simp [applyOp, e], by simp [exec, applyOp, e]⟩

/-- Witness for C11: item `1` is not tracked by the wheel that holds item `0`. -/
theorem C11_cancel_untracked_noop_witness :
    mapGet wheel5b.item2Idx 1 = none ∧ DelItem wheel5b 1 = some wheel5b ∧
      applyOp wheel5b (Op.del 1) = some (wheel5b, []) ∧
      exec wheel5b [Op.del 1] = some (wheel5b, []) :=
  ⟨by decide, C11_cancel_untracked_noop wheel5b 1 (by decide)⟩

/-- C13: effect of one step.  On a reachable wheel with `N` buckets and cursor `c`,
`stepForward` returns; the cursor becomes `(c + 1) mod N`; the items released are
the keys of the bucket `slots[(c + 1) mod N]` before the call, each once; exactly
those items are removed from `item2Idx`; that bucket is empty afterwards and every
other bucket is unchanged. -/
theorem C13_effect_of_step (tw : TimingWheel α) (h : Reachable tw) :
    ∃ tw1 rel sl, stepForward tw = some (tw1, rel) ∧
      tw.slots[(tw.curIndex + 1) % tw.slots.length]? = some sl ∧
      tw1.curIndex = (tw.curIndex + 1) % tw.slots.length ∧
      rel = mapKeys sl ∧ rel.Nodup ∧
      (∀ y, y ∈ rel ↔ inSlot tw ((tw.curIndex + 1) % tw.slots.length) y) ∧
      (∀ y, mapGet tw1.item2Idx y = if y ∈ rel then none else mapGet tw.item2Idx y) ∧
      tw1.slots[(tw.curIndex + 1) % tw.slots.length]? = some [] ∧
      (∀ j, j ≠ (tw.curIndex + 1) % tw.slots.length → tw1.slots[j]? = tw.slots[j]?) ∧
      tw1.slots.length = tw.slots.length ∧ tw1.stepTime = tw.stepTime := by
  have hw := h.wf
  have hlt := nextIndex_lt tw hw.cur_lt
  obtain ⟨sl, hsl, e⟩ := stepForward_eq tw hw.cur_lt
  rw [← nextIndex_eq_mod tw hw.cur_lt]
  refine ⟨_, _, sl, e, hsl, rfl, rfl, hw.slots_nodup _ _ hsl, ?_, ?_, ?_, ?_, ?_, rfl⟩
  · intro y
    exact (memSlot_of_getElem tw.slots _ sl hsl y).symm
  · intro y
    exact releaseLoop_get _ _ y
  · show (tw.slots.set (nextIndex tw) [])[nextIndex tw]? = some []
    rw [List.getElem?_set, if_pos rfl, if_pos hlt]
  · intro j hj
    show (tw.slots.set (nextIndex tw) [])[j]? = tw.slots[j]?
    rw [List.getElem?_set, if_neg (fun e2 => hj e2.symm)]
  · show (tw.slots.set (nextIndex tw) []).length = tw.slots.length
    simp

/-- Witness for C13: on the wheel with cursor `4` and item `0` in bucket `0`, the
step moves the cursor to `0` and releases item `0`. -/
theorem C13_effect_of_step_witness :
    ∃ tw1 rel sl, stepForward wheel5a = some (tw1, rel) ∧
      wheel5a.slots[(wheel5a.curIndex + 1) % wheel5a.slots.length]? = some sl ∧
      tw1.curIndex = (wheel5a.curIndex + 1) % wheel5a.slots.length ∧
      rel = mapKeys sl ∧ rel.Nodup ∧
      (∀ y, y ∈ rel ↔ inSlot wheel5a ((wheel5a.curIndex + 1) % wheel5a.slots.length) y) ∧
      (∀ y, mapGet tw1.item2Idx y = if y ∈ rel then none else mapGet wheel5a.item2Idx y) ∧
      tw1.slots[(wheel5a.curIndex + 1) % wheel5a.slots.length]? = some [] ∧
      (∀ j, j ≠ (wheel5a.curIndex + 1) % wheel5a.slots.length →
        tw1.slots[j]? = wheel5a.slots[j]?) ∧
      tw1.slots.length = wheel5a.slots.length ∧ tw1.stepTime = wheel5a.stepTime :=
  C13_effect_of_step wheel5a
    (exec_reachable [Op.add 0, Op.step, Op.step, Op.step, Op.step] wheel5 wheel5a []
      (Reachable.init maxLen64 5 5 _ rfl) (by decide))

/-- C14: placement by `AddItem`.  On a reachable wheel, `AddItem(x)` returns and
afterwards `item2Idx[x] = curIndex`, `x` is a key of `slots[curIndex]` and of no
other bucket, whether `x` was untracked, tracked at the cursor, or tracked in
another bucket (from which it is then removed). -/
theorem C14_placement_by_addItem (tw : TimingWheel α) (h : Reachable tw) (x : α) :
    ∃ tw1, AddItem tw x = some tw1 ∧ tw1.curIndex = tw.curIndex ∧
      mapGet tw1.item2Idx x = some tw1.curIndex ∧ inSlot tw1 tw1.curIndex x ∧
      (∀ j, j ≠ tw1.curIndex → ¬ inSlot tw1 j x) ∧
      (∀ i, mapGet tw.item2Idx x = some i → i ≠ tw.curIndex →
        inSlot tw i x ∧ ¬ inSlot tw1 i x) := by
  obtain ⟨tw1, e, hw, hc, _, _, hx, _⟩ := AddItem_spec tw x h.wf
  have hx1 : mapGet tw1.item2Idx x = some tw1.curIndex := by rw [hc]; exact hx
  have huniq : ∀ j, j ≠ tw1.curIndex → ¬ inSlot tw1 j x := by
    intro j hj hm
    have := (hw.consistent x j).2 hm
    rw [hx1] at this
    cases this
    exact hj rfl
  refine ⟨tw1, e, hc, hx1, (hw.consistent x _).1 hx1, huniq, ?_⟩
  intro i hi hne
  exact ⟨(h.wf.consistent x i).1 hi, huniq i (by rw [hc]; exact hne)⟩

/-- Witness for C14: item `0` sits in bucket `0` while the cursor is `1`; `AddItem(0)`
moves it to bucket `1`. -/
theorem C14_placement_by_addItem_witness :
    ∃ tw1, AddItem wheel5b 0 = some tw1 ∧ tw1.curIndex = wheel5b.curIndex ∧
      mapGet tw1.item2Idx 0 = some tw1.curIndex ∧ inSlot tw1 tw1.curIndex 0 ∧
      (∀ j, j ≠ tw1.curIndex → ¬ inSlot tw1 j 0) ∧
      (∀ i, mapGet wheel5b.item2Idx 0 = some i → i ≠ wheel5b.curIndex →
        inSlot wheel5b i 0 ∧ ¬ inSlot tw1 i 0) :=
  C14_placement_by_addItem wheel5b
    (exec_reachable [Op.add 0, Op.step] wheel5 wheel5b [] (Reachable.init maxLen64 5 5 _ rfl) (by decide)) 0

/-- C15: stepping an empty wheel only rotates the index.  On a reachable wheel that
tracks no item, `item2Idx` and every bucket are empty, and `stepForward` returns
the same wheel with `curIndex` set to `(curIndex + 1) mod slotCount`, releasing
nothing. -/
theorem C15_step_empty_wheel (tw : TimingWheel α) (h : Reachable tw)
    (hempty : ∀ x, ¬ tracked tw x) :
    stepForward tw =
        some ({ tw with curIndex := (tw.curIndex + 1) % tw.slots.length }, []) ∧
      tw.item2Idx = [] ∧ ∀ (i : Nat) (sl : itemCon α), tw.slots[i]? = some sl → sl = [] := by
  have hw := h.wf
  have hnone : ∀ x, mapGet tw.item2Idx x = none := by
    intro x
    by_contra hx
    exact hempty x hx
  have hidx : tw.item2Idx = [] := eq_nil_of_mapGet_none _ hnone
  have hslots : ∀ (i : Nat) (sl : itemCon α), tw.slots[i]? = some sl → sl = [] := by
    intro i sl hsl
    cases sl with
    | nil => rfl
    | cons p rest =>
      have hm : inSlot tw i p.1 := ⟨p :: rest, hsl, by simp [mapKeys]⟩
      have := (hw.consistent p.1 i).2 hm
      rw [hnone] at this
      cases this
  refine ⟨?_, hidx, hslots⟩
  obtain ⟨sl, hsl, e⟩ := stepForward_eq tw hw.cur_lt
  have hsl0 : sl = [] := hslots _ sl hsl
  subst hsl0
  rw [e, set_eq_self _ _ _ hsl, ← nextIndex_eq_mod tw hw.cur_lt, hidx]
  rfl

/-- Witness for C15: the fresh wheel of `NewTimingWheel(5ns, 5)`. -/
theorem C15_step_empty_wheel_witness :
    stepForward wheel5 =
        some ({ wheel5 with curIndex := (wheel5.curIndex + 1) % wheel5.slots.length }, []) ∧
      wheel5.item2Idx = [] ∧
      ∀ (i : Nat) (sl : itemCon Nat), wheel5.slots[i]? = some sl → sl = [] :=
  C15_step_empty_wheel wheel5 (Reachable.init maxLen64 5 5 _ rfl) (by
    intro x ht
    exact ht rfl)

/-- C18: `AddItem` and `DelItem` touch only their own item.  On a reachable wheel,
for `y ≠ x`, each of `AddItem(x)` and `DelItem(x)` returns without any `Release`
call, leaves `curIndex` unchanged, and leaves unchanged whether `y` is tracked,
the index recorded for `y`, and the membership of `y` in every bucket. -/
theorem C18_frame_add_del (tw : TimingWheel α) (h : Reachable tw) (x y : α) (hne : y ≠ x) :
    (∃ tw1, AddItem tw x = some tw1 ∧ applyOp tw (Op.add x) = some (tw1, []) ∧
        tw1.curIndex = tw.curIndex ∧ mapGet tw1.item2Idx y = mapGet tw.item2Idx y ∧
        (tracked tw1 y ↔ tracked tw y) ∧ ∀ j, inSlot tw1 j y ↔ inSlot tw j y) ∧
      ∃ tw1, DelItem tw x = some tw1 ∧ applyOp tw (Op.del x) = some (tw1, []) ∧
        tw1.curIndex = tw.curIndex ∧ mapGet tw1.item2Idx y = mapGet tw.item2Idx y ∧
        (tracked tw1 y ↔ tracked tw y) ∧ ∀ j, inSlot tw1 j y ↔ inSlot tw j y := by
  have hw := h.wf
  constructor
  · obtain ⟨tw1, e, hw1, hc, _, _, _, hoth⟩ := AddItem_spec tw x hw
    refine ⟨tw1, e, applyOp_add_of _ _ _ e, hc, hoth y hne, ?_, ?_⟩
    · unfold tracked
      rw [hoth y hne]
    · intro j
      rw [← hw1.consistent y j, ← hw.consistent y j, hoth y hne]
  · obtain ⟨tw1, e, hw1, hc, _, _, _, hoth⟩ := DelItem_spec tw x hw
    refine ⟨tw1, e, applyOp_del_of _ _ _ e, hc, hoth y hne, ?_, ?_⟩
    · unfold tracked
      rw [hoth y hne]
    · intro j
      rw [← hw1.consistent y j, ← hw.consistent y j, hoth y hne]

/-- Witness for C18: items `1` and `2` share bucket `1`; adding or cancelling `1`
leaves `2` where it is. -/
theorem C18_frame_add_del_witness :
    (∃ tw1, AddItem wheel5c 1 = some tw1 ∧ applyOp wheel5c (Op.add 1) = some (tw1, []) ∧
        tw1.curIndex = wheel5c.curIndex ∧ mapGet tw1.item2Idx 2 = mapGet wheel5c.item2Idx 2 ∧
        (tracked tw1 2 ↔ tracked wheel5c 2) ∧ ∀ j, inSlot tw1 j 2 ↔ inSlot wheel5c j 2) ∧
      ∃ tw1, DelItem wheel5c 1 = some tw1 ∧ applyOp wheel5c (Op.del 1) = some (tw1, []) ∧
        tw1.curIndex = wheel5c.curIndex ∧ mapGet tw1.item2Idx 2 = mapGet wheel5c.item2Idx 2 ∧
        (tracked tw1 2 ↔ tracked wheel5c 2) ∧ ∀ j, inSlot tw1 j 2 ↔ inSlot wheel5c j 2 :=
  C18_frame_add_del wheel5c
    (exec_reachable [Op.add 1, Op.step, Op.add 2, Op.add 1] wheel5 wheel5c []
      (Reachable.init maxLen64 5 5 _ rfl) (by decide)) 1 2 (by decide)

end Effects

/-! ## The observer does not change a step -/

section ObservedCalls

variable {α : Type}

theorem releasesOf_observedCalls (ks : List α) : releasesOf (observedCalls ks) = ks := by
  induction ks with
  | nil => rfl
  | cons k ks ih => simp [observedCalls, releasesOf, ih]

theorem afterReleaseCount_observedCalls (ks : List α) :
    afterReleaseCount (observedCalls ks) = ks.length := by
  induction ks with
  | nil => rfl
  | cons k ks ih => simp [observedCalls, afterReleaseCount, ih]

end ObservedCalls

section ObserverLemmas

variable {α σ : Type} [DecidableEq α]

theorem releaseLoopWithObserver_spec (ob : Observer σ) (ks : List α) (m : GoMap α Nat) (s : σ) :
    releaseLoopWithObserver ob ks m s =
      ((releaseLoop ks m).1, observedCalls ks, ob.afterRelease^[ks.length] s) := by
  induction ks generalizing m s with
  | nil => rfl
  | cons k ks ih =>
    simp only [releaseLoopWithObserver, releaseLoop, observedCalls, ih, List.length_cons,
      Function.iterate_succ_apply]

/-- C17: the observer does not change step semantics.  On every state (reachable or
not) and for every observer, `stepForwardWithObserver` returns exactly when
`stepForward` does, with the same resulting wheel and the same items released
(both visit the bucket in the model's one order); each release is followed at once
by one `afterRelease` call, so the hook runs exactly once per released item, and
the observer's state is the hook applied that many times. -/
theorem C17_observer_preserves_step (ob : Observer σ) (tw : TimingWheel α) (s : σ) :
    stepForwardWithObserver ob tw s =
        (stepForward tw).map
          (fun p => (p.1, observedCalls p.2, ob.afterRelease^[p.2.length] s)) ∧
      (stepForwardWithObserver ob tw s).map (fun r => (r.1, releasesOf r.2.1)) =
        stepForward tw ∧
      (stepForwardWithObserver ob tw s).map (fun r => afterReleaseCount r.2.1) =
        (stepForward tw).map (fun p => p.2.length) ∧
      ((stepForwardWithObserver ob tw s).isSome ↔ (stepForward tw).isSome) := by
  have key : stepForwardWithObserver ob tw s =
      (stepForward tw).map
        (fun p => (p.1, observedCalls p.2, ob.afterRelease^[p.2.length] s)) := by
    simp only [stepForwardWithObserver, stepForward]
    generalize (if tw.curIndex + 1 ≥ tw.slots.length then 0 else tw.curIndex + 1) = idx
    cases tw.slots[idx]? with
    | none => rfl
    | some sl => simp [releaseLoopWithObserver_spec, releaseLoop_log]
  refine ⟨key, ?_, ?_, ?_⟩
  · rw [key]
    cases stepForward tw with
    | none => rfl
    | some p => simp [releasesOf_observedCalls]
  · rw [key]
    cases stepForward tw with
    | none => rfl
    | some p => simp [afterReleaseCount_observedCalls]
  · rw [key]
    cases stepForward tw with
    | none => simp
    | some p => simp

/-- The observer of the examples, on the wheel with cursor `4` and item `0` in
bucket `0`: the step releases item `0` and `releaseCnt` goes from `0` to `1`. -/
theorem stepForwardWithObserver_wheel5a :
    stepForwardWithObserver wheelObserver wheel5a { step := 5, releaseCnt := 0, moveCnt := 0 } =
      some (wheel5, [Event.release 0, Event.afterRelease],
        { step := 5, releaseCnt := 1, moveCnt := 0 }) := by
  decide

end ObserverLemmas

/-! ## Counting and draining -/

section Counting

variable {α : Type} [DecidableEq α]

theorem length_mapDelete_le {ν : Type} (m : GoMap α ν) (k : α) :
    (mapDelete m k).length ≤ m.length :=
  List.length_filter_le _ _

theorem length_mapDelete_of_mem {ν : Type} (m : GoMap α ν) (k : α) (hnd : (mapKeys m).Nodup)
    (h : mapGet m k ≠ none) : (mapDelete m k).length + 1 = m.length := by
  induction m with
  | nil => exact absurd rfl h
  | cons p rest ih =>
    obtain ⟨k1, v⟩ := p
    have hnd2 : k1 ∉ mapKeys rest ∧ (mapKeys rest).Nodup := List.nodup_cons.1 hnd
    by_cases e : k1 = k
    · subst e
      have hno : mapGet rest k1 = none := by
        by_contra hc
        exact hnd2.1 ((mem_mapKeys_iff rest k1).2 hc)
      rw [mapDelete_cons_eq _ _ _ rfl, mapDelete_of_not_mem rest k1 hno]
      rfl
    · rw [mapGet_cons_ne _ _ _ _ e] at h
      rw [mapDelete_cons_ne _ _ _ e]
      have := ih hnd2.2 h
      simp only [List.length_cons]
      omega

theorem releaseLoop_length_le (ks : List α) (m : GoMap α Nat) :
    (releaseLoop ks m).1.length ≤ m.length := by
  induction ks generalizing m with
  | nil => exact le_refl _
  | cons k ks ih =>
    simp only [releaseLoop]
    exact le_trans (ih _) (length_mapDelete_le m k)

theorem releaseLoop_length (ks : List α) (m : GoMap α Nat) (hks : ks.Nodup)
    (hnd : (mapKeys m).Nodup) (hin : ∀ k ∈ ks, mapGet m k ≠ none) :
    (releaseLoop ks m).1.length + ks.length = m.length := by
  induction ks generalizing m with
  | nil => rfl
  | cons k ks ih =>
    have hks2 : k ∉ ks ∧ ks.Nodup := List.nodup_cons.1 hks
    have h1 := length_mapDelete_of_mem m k hnd (hin k (List.mem_cons_self _ _))
    have h2 := ih (mapDelete m k) hks2.2 (nodup_mapKeys_delete m k hnd) (by
      intro k2 hk2
      have hne : k2 ≠ k := fun e => hks2.1 (e ▸ hk2)
      rw [mapGet_delete_ne m k k2 hne]
      exact hin k2 (List.mem_cons_of_mem _ hk2))
    simp only [releaseLoop, List.length_cons]
    omega

/-- On a well-formed wheel the keys of `item2Idx` are, up to order, the keys of all
buckets together; so `itemCount` is the sum of the bucket sizes. -/
theorem itemCount_eq_slotTotal (tw : TimingWheel α) (h : WF tw) :
    itemCount tw = slotTotal tw := by
  have hnd : ((tw.slots.map mapKeys).flatten).Nodup := by
    rw [List.nodup_flatten]
    constructor
    · intro l hl
      obtain ⟨sl, hsl, e⟩ := List.mem_map.1 hl
      obtain ⟨i, hi⟩ := List.mem_iff_getElem?.1 hsl
      rw [← e]
      exact h.slots_nodup i sl hi
    · rw [List.pairwise_iff_getElem]
      intro i j hi hj hij a ha hb
      simp only [List.length_map] at hi hj
      simp only [List.getElem_map] at ha hb
      have m1 : inSlot tw i a := ⟨tw.slots[i], List.getElem?_eq_getElem hi, ha⟩
      have m2 : inSlot tw j a := ⟨tw.slots[j], List.getElem?_eq_getElem hj, hb⟩
      have e1 := (h.consistent a i).2 m1
      have e2 := (h.consistent a j).2 m2
      rw [e1] at e2
      cases e2
      omega
  have hmem : ∀ a, a ∈ mapKeys tw.item2Idx ↔ a ∈ (tw.slots.map mapKeys).flatten := by
    intro a
    rw [mem_mapKeys_iff, List.mem_flatten]
    constructor
    · intro ha
      cases hg : mapGet tw.item2Idx a with
      | none => exact absurd hg ha
      | some i =>
        obtain ⟨sl, hsl, hx⟩ := (h.consistent a i).1 hg
        exact ⟨mapKeys sl, List.mem_map.2 ⟨sl, List.mem_iff_getElem?.2 ⟨i, hsl⟩, rfl⟩, hx⟩
    · rintro ⟨l, hl, ha⟩
      obtain ⟨sl, hsl, e⟩ := List.mem_map.1 hl
      obtain ⟨i, hi⟩ := List.mem_iff_getElem?.1 hsl
      have := (h.consistent a i).2 ⟨sl, hi, by rw [e]; exact ha⟩
      rw [this]
      exact Option.some_ne_none _
  have hperm := (List.perm_ext_iff_of_nodup h.idx_nodup hnd).2 hmem
  have hlen := hperm.length_eq
  rw [List.length_flatten, List.map_map] at hlen
  have e1 : itemCount tw = (mapKeys tw.item2Idx).length := by
    simp [itemCount, mapLen, mapKeys]
  have e2 : slotTotal tw = (tw.slots.map (List.length ∘ mapKeys)).sum := by
    unfold slotTotal
    congr 1
    apply List.map_congr_left
    intro sl _
    simp [mapLen, mapKeys]
  rw [e1, e2, hlen]

/-- Along a history without `AddItem(x)` that holds at least as many steps as the
bucket of `x` is away from being drained, `x` ends untracked; if the history does
not cancel `x` either, `x` is released once if it was tracked and never otherwise. -/
theorem drain_item (x : α) (ops : List (Op α)) (tw : TimingWheel α) (h : WF tw)
    (hno : Op.add x ∉ ops)
    (hd : ∀ i, mapGet tw.item2Idx x = some i → stepsUntil tw i ≤ stepCount ops) :
    ∃ tw1 log, exec tw ops = some (tw1, log) ∧ WF tw1 ∧ mapGet tw1.item2Idx x = none ∧
      (Op.del x ∉ ops → log.count x = trackedNat tw x) := by
  induction ops generalizing tw with
  | nil =>
    have hx : mapGet tw.item2Idx x = none := by
      cases hg : mapGet tw.item2Idx x with
      | none => rfl
      | some i =>
        have a := hd i hg
        have b := stepsUntil_pos tw i h.cur_lt
        simp only [stepCount] at a
        omega
    exact ⟨tw, [], rfl, h, hx, fun _ => by simp [trackedNat, hx]⟩
  | cons op ops ih =>
    have hno2 : Op.add x ∉ ops := fun hm => hno (List.mem_cons_of_mem _ hm)
    have hop : Op.add x ≠ op := fun e => hno (e ▸ List.mem_cons_self _ _)
    cases op with
    | add y =>
      have hne : x ≠ y := fun e => hop (by rw [e])
      obtain ⟨t, e, hw, hc, hl, _, _, hoth⟩ := AddItem_spec tw y h
      have hg : mapGet t.item2Idx x = mapGet tw.item2Idx x := hoth x hne
      obtain ⟨t2, l2, e2, hw2, hx2, hcnt⟩ := ih t hw hno2 (by
        intro i hi
        rw [hg] at hi
        rw [stepsUntil_congr tw t i hc hl]
        simpa [stepCount] using hd i hi)
      refine ⟨t2, [] ++ l2, exec_cons_of _ _ _ _ _ _ _ (applyOp_add_of _ _ _ e) e2, hw2, hx2, ?_⟩
      intro hdel
      have hdel2 : Op.del x ∉ ops := fun hm => hdel (List.mem_cons_of_mem _ hm)
      rw [List.nil_append, hcnt hdel2]
      simp [trackedNat, hg]
    | del y =>
      obtain ⟨t, e, hw, hc, hl, _, hself, hoth⟩ := DelItem_spec tw y h
      obtain ⟨t2, l2, e2, hw2, hx2, hcnt⟩ := ih t hw hno2 (by
        intro i hi
        by_cases hxy : x = y
        · rw [hxy, hself] at hi
          cases hi
        · rw [hoth x hxy] at hi
          rw [stepsUntil_congr tw t i hc hl]
          simpa [stepCount] using hd i hi)
      refine ⟨t2, [] ++ l2, exec_cons_of _ _ _ _ _ _ _ (applyOp_del_of _ _ _ e) e2, hw2, hx2, ?_⟩
      intro hdel
      have hdel2 : Op.del x ∉ ops := fun hm => hdel (List.mem_cons_of_mem _ hm)
      have hxy : x ≠ y := fun e3 => hdel (by rw [e3]; exact List.mem_cons_self _ _)
      rw [List.nil_append, hcnt hdel2]
      simp [trackedNat, hoth x hxy]
    | step =>
      obtain ⟨t, rel, e, hw, hc, hl, _, hnd, hrel, hget⟩ := stepForward_spec tw h
      have hsc : stepCount (Op.step :: ops) = stepCount ops + 1 := rfl
      obtain ⟨t2, l2, e2, hw2, hx2, hcnt⟩ := ih t hw hno2 (by
        intro i hi
        rw [hget x] at hi
        by_cases hm : x ∈ rel
        · rw [if_pos hm] at hi
          cases hi
        · rw [if_neg hm] at hi
          have hilt : i < tw.slots.length := memSlot_lt _ _ _ ((h.consistent x i).1 hi)
          have hne : i ≠ nextIndex tw := by
            intro e3
            exact hm ((hrel x).2 (by rw [hi, e3]))
          obtain ⟨_, f2, _, _⟩ := stepsUntil_facts tw t i h.cur_lt hilt hc hl
          have a := f2 hne
          have b := hd i hi
          rw [hsc] at b
          omega)
      refine ⟨t2, rel ++ l2, exec_cons_of _ _ _ _ _ _ _ e e2, hw2, hx2, ?_⟩
      intro hdel
      have hdel2 : Op.del x ∉ ops := fun hm => hdel (List.mem_cons_of_mem _ hm)
      rw [List.count_append, hcnt hdel2]
      by_cases hm : x ∈ rel
      · have a := List.count_eq_one_of_mem hnd hm
        have b : trackedNat t x = 0 := by simp [trackedNat, hget x, hm]
        have c : trackedNat tw x = 1 := by simp [trackedNat, (hrel x).1 hm]
        omega
      · have a : rel.count x = 0 := List.count_eq_zero_of_not_mem hm
        have b : trackedNat t x = trackedNat tw x := by simp [trackedNat, hget x, hm]
        omega

/-- C12: the wheel drains once adds stop.  From a reachable wheel with `N` buckets,
every history without `AddItem` that holds `N` steps (or more; `DelItem` calls are
allowed) runs to a wheel with `itemCount() = 0`, an empty `item2Idx` and every
bucket empty; every item tracked at the start and not cancelled in the history has
been released exactly once, and an item untracked at the start not at all. -/
theorem C12_wheel_drains (tw : TimingWheel α) (h : Reachable tw) (ops : List (Op α))
    (hno : ∀ op ∈ ops, isAdd op = false) (hN : tw.slots.length ≤ stepCount ops) :
    ∃ tw1 log, exec tw ops = some (tw1, log) ∧ itemCount tw1 = 0 ∧ tw1.item2Idx = [] ∧
      (∀ (i : Nat) (sl : itemCon α), tw1.slots[i]? = some sl → sl = []) ∧
      tw1.slots.length = tw.slots.length ∧
      (∀ x, tracked tw x → Op.del x ∉ ops → log.count x = 1) ∧
      (∀ x, ¬ tracked tw x → Op.del x ∉ ops → log.count x = 0) := by
  have hw := h.wf
  obtain ⟨tw1, log, e, hw1, hl⟩ := exec_total ops tw hw
  have hitem : ∀ x, mapGet tw1.item2Idx x = none ∧
      (Op.del x ∉ ops → log.count x = trackedNat tw x) := by
    intro x
    obtain ⟨t, l, e2, _, hx, hcnt⟩ := drain_item x ops tw hw (not_add_mem_of_isAdd ops hno x) (by
      intro i hi
      have hilt : i < tw.slots.length := memSlot_lt _ _ _ ((hw.consistent x i).1 hi)
      exact le_trans (stepsUntil_le tw i hw.cur_lt hilt) hN)
    rw [e] at e2
    cases e2
    exact ⟨hx, hcnt⟩
  have hidx : tw1.item2Idx = [] := eq_nil_of_mapGet_none _ (fun x => (hitem x).1)
  refine ⟨tw1, log, e, by simp [itemCount, mapLen, hidx], hidx, ?_, hl, ?_, ?_⟩
  · intro i sl hsl
    cases sl with
    | nil => rfl
    | cons p rest =>
      have hm : inSlot tw1 i p.1 := ⟨p :: rest, hsl, by simp [mapKeys]⟩
      have := (hw1.consistent p.1 i).2 hm
      rw [(hitem p.1).1] at this
      cases this
  · intro x ht hdel
    rw [(hitem x).2 hdel]
    unfold tracked at ht
    cases hg : mapGet tw.item2Idx x with
    | none => exact absurd hg ht
    | some i => simp [trackedNat, hg]
  · intro x ht hdel
    rw [(hitem x).2 hdel]
    unfold tracked at ht
    have hg : mapGet tw.item2Idx x = none := by
      by_contra hc
      exact ht hc
    simp [trackedNat, hg]

/-- Witness for C12: items `1` and `2` sit in bucket `1` of five; five steps with a
`DelItem(2)` in between empty the wheel, and item `1` is released once. -/
theorem C12_wheel_drains_witness :
    ∃ tw1 log, exec wheel5c [Op.step, Op.del 2, Op.step, Op.step, Op.step, Op.step] =
        some (tw1, log) ∧ itemCount tw1 = 0 ∧ tw1.item2Idx = [] ∧
      (∀ (i : Nat) (sl : itemCon Nat), tw1.slots[i]? = some sl → sl = []) ∧
      tw1.slots.length = wheel5c.slots.length ∧
      (∀ x, tracked wheel5c x →
        Op.del x ∉ [Op.step, Op.del 2, Op.step, Op.step, Op.step, Op.step] → log.count x = 1) ∧
      (∀ x, ¬ tracked wheel5c x →
        Op.del x ∉ [Op.step, Op.del 2, Op.step, Op.step, Op.step, Op.step] → log.count x = 0) :=
  C12_wheel_drains wheel5c
    (exec_reachable [Op.add 1, Op.step, Op.add 2, Op.add 1] wheel5 wheel5c []
      (Reachable.init maxLen64 5 5 _ rfl) (by decide))
    [Op.step, Op.del 2, Op.step, Op.step, Op.step, Op.step] (by decide) (by decide)

/-- C16: indices stay in range.  Every history run on a wheel built by
`NewTimingWheel(max, slotCnt)` runs to completion, and in the state reached
`len(slots)` is `slotCnt`, `curIndex < len(slots)` (it is a natural number, so
`0 <= curIndex`), every value stored in `item2Idx` is below `len(slots)`, and
`AddItem`, `DelItem` and `stepForward` all return: no slot index is out of bounds. -/
theorem C16_indices_in_range (maxLen max slotCnt : Int) (tw0 : TimingWheel α)
    (hnew : NewTimingWheel α maxLen max slotCnt = some (Except.ok tw0)) (ops : List (Op α)) :
    ∃ tw log, exec tw0 ops = some (tw, log) ∧ (tw.slots.length : Int) = slotCnt ∧
      tw.curIndex < tw.slots.length ∧
      (∀ p ∈ tw.item2Idx, p.2 < tw.slots.length) ∧
      (∀ x i, mapGet tw.item2Idx x = some i → i < tw.slots.length) ∧
      (∀ y, ∃ t, AddItem tw y = some t) ∧ (∀ y, ∃ t, DelItem tw y = some t) ∧
      ∃ t rel, stepForward tw = some (t, rel) := by
  obtain ⟨hw0, hlen0, _, _, _⟩ := WF_init maxLen max slotCnt tw0 hnew
  obtain ⟨tw, log, e, hw, hl⟩ := exec_total ops tw0 hw0
  have hget : ∀ x i, mapGet tw.item2Idx x = some i → i < tw.slots.length := by
    intro x i hi
    exact memSlot_lt _ _ _ ((hw.consistent x i).1 hi)
  refine ⟨tw, log, e, by rw [hl]; exact hlen0, hw.cur_lt, ?_, hget, ?_, ?_, ?_⟩
  · intro p hp
    exact hget p.1 p.2 (mapGet_of_mem _ _ _ hw.idx_nodup hp)
  · intro y
    obtain ⟨t, et, _⟩ := AddItem_spec tw y hw
    exact ⟨t, et⟩
  · intro y
    obtain ⟨t, et, _⟩ := DelItem_spec tw y hw
    exact ⟨t, et⟩
  · obtain ⟨t, rel, et, _⟩ := stepForward_spec tw hw
    exact ⟨t, rel, et⟩

/-- Witness for C16: the wheel of `NewTimingWheel(5ns, 5)` after seven steps and
some traffic. -/
theorem C16_indices_in_range_witness :
    ∃ tw log, exec wheel5 [Op.add 1, Op.step, Op.add 2, Op.step, Op.step, Op.step, Op.add 1,
        Op.step, Op.step, Op.del 2, Op.step] = some (tw, log) ∧
      (tw.slots.length : Int) = 5 ∧ tw.curIndex < tw.slots.length ∧
      (∀ p ∈ tw.item2Idx, p.2 < tw.slots.length) ∧
      (∀ x i, mapGet tw.item2Idx x = some i → i < tw.slots.length) ∧
      (∀ y, ∃ t, AddItem tw y = some t) ∧ (∀ y, ∃ t, DelItem tw y = some t) ∧
      ∃ t rel, stepForward tw = some (t, rel) :=
  C16_indices_in_range maxLen64 5 5 wheel5 rfl _

/-- C19: `itemCount` counts what the buckets hold.  On a reachable wheel,
`itemCount()` is the sum of the sizes of all buckets; `AddItem` of an untracked
item raises it by exactly `1` and `AddItem` of a tracked item leaves it unchanged;
`DelItem` lowers it by `1` for a tracked item and leaves it unchanged otherwise;
`stepForward` lowers it by the number of items released; and it is `0` on a fresh
wheel. -/
theorem C19_itemCount_counts_slots (tw : TimingWheel α) (h : Reachable tw) :
    itemCount tw = slotTotal tw ∧
      (∀ x, ∃ tw1, AddItem tw x = some tw1 ∧
        (¬ tracked tw x → itemCount tw1 = itemCount tw + 1) ∧
        (tracked tw x → itemCount tw1 = itemCount tw)) ∧
      (∀ x, ∃ tw1, DelItem tw x = some tw1 ∧ itemCount tw1 ≤ itemCount tw ∧
        (tracked tw x → itemCount tw1 + 1 = itemCount tw) ∧
        (¬ tracked tw x → itemCount tw1 = itemCount tw)) ∧
      (∃ tw1 rel, stepForward tw = some (tw1, rel) ∧ itemCount tw1 ≤ itemCount tw ∧
        itemCount tw1 + rel.length = itemCount tw) ∧
      (∀ (maxLen max slotCnt : Int) (tw0 : TimingWheel α),
        NewTimingWheel α maxLen max slotCnt = some (Except.ok tw0) →
          itemCount tw0 = 0 ∧ slotTotal tw0 = 0) := by
  have hw := h.wf
  refine ⟨itemCount_eq_slotTotal tw hw, ?_, ?_, ?_, ?_⟩
  · intro x
    obtain ⟨tw1, e, _⟩ := AddItem_spec tw x hw
    have hi := AddItem_item2Idx tw tw1 x e
    refine ⟨tw1, e, ?_, ?_⟩
    · intro ht
      have hg : mapGet tw.item2Idx x = none := by
        by_contra hc
        exact ht hc
      rw [hg, if_neg (by simp)] at hi
      simp only [itemCount, mapLen, hi, mapSet, mapDelete_of_not_mem _ _ hg, List.length_cons]
    · intro ht
      by_cases hc : mapGet tw.item2Idx x = some tw.curIndex
      · rw [if_pos hc] at hi
        simp only [itemCount, hi]
      · rw [if_neg hc] at hi
        have := length_mapDelete_of_mem tw.item2Idx x hw.idx_nodup ht
        simp only [itemCount, mapLen, hi, mapSet, List.length_cons]
        omega
  · intro x
    obtain ⟨tw1, e, _⟩ := DelItem_spec tw x hw
    have hi := DelItem_item2Idx tw tw1 x e
    refine ⟨tw1, e, ?_, ?_, ?_⟩
    · simp only [itemCount, mapLen, hi]
      exact length_mapDelete_le _ _
    · intro ht
      simp only [itemCount, mapLen, hi]
      exact length_mapDelete_of_mem tw.item2Idx x hw.idx_nodup ht
    · intro ht
      have hg : mapGet tw.item2Idx x = none := by
        by_contra hc
        exact ht hc
      simp only [itemCount, mapLen, hi, mapDelete_of_not_mem _ _ hg]
  · obtain ⟨sl, hsl, e⟩ := stepForward_eq tw hw.cur_lt
    have hlen := releaseLoop_length (mapKeys sl) tw.item2Idx (hw.slots_nodup _ _ hsl)
      hw.idx_nodup (by
        intro k hk
        have := (hw.consistent k (nextIndex tw)).2 ⟨sl, hsl, hk⟩
        rw [this]
        exact Option.some_ne_none _)
    refine ⟨_, _, e, ?_, ?_⟩
    · simp only [itemCount, mapLen]
      exact releaseLoop_length_le _ _
    · simp only [itemCount, mapLen]
      exact hlen
  · intro maxLen max slotCnt tw0 hnew
    obtain ⟨hw0, _, _, hempty, _⟩ := WF_init maxLen max slotCnt tw0 hnew
    have h0 : itemCount tw0 = 0 := by simp [itemCount, mapLen, hempty]
    exact ⟨h0, by rw [← itemCount_eq_slotTotal tw0 hw0]; exact h0⟩

/-- Witness for C19: the wheel with items `1` and `2` in bucket `1`. -/
theorem C19_itemCount_counts_slots_witness :
    itemCount wheel5c = 2 ∧ itemCount wheel5c = slotTotal wheel5c ∧
      (∀ x, ∃ tw1, AddItem wheel5c x = some tw1 ∧
        (¬ tracked wheel5c x → itemCount tw1 = itemCount wheel5c + 1) ∧
        (tracked wheel5c x → itemCount tw1 = itemCount wheel5c)) ∧
      (∀ x, ∃ tw1, DelItem wheel5c x = some tw1 ∧ itemCount tw1 ≤ itemCount wheel5c ∧
        (tracked wheel5c x → itemCount tw1 + 1 = itemCount wheel5c) ∧
        (¬ tracked wheel5c x → itemCount tw1 = itemCount wheel5c)) ∧
      (∃ tw1 rel, stepForward wheel5c = some (tw1, rel) ∧ itemCount tw1 ≤ itemCount wheel5c ∧
        itemCount tw1 + rel.length = itemCount wheel5c) ∧
      (∀ (maxLen max slotCnt : Int) (tw0 : TimingWheel Nat),
        NewTimingWheel Nat maxLen max slotCnt = some (Except.ok tw0) →
          itemCount tw0 = 0 ∧ slotTotal tw0 = 0) :=
  ⟨by decide,
    C19_itemCount_counts_slots wheel5c
      (exec_reachable [Op.add 1, Op.step, Op.add 2, Op.add 1] wheel5 wheel5c []
        (Reachable.init maxLen64 5 5 _ rfl) (by decide))⟩

end Counting

/-! ## The construction claims -/

/-- C6 as stated fails: `(MaxInt64, MaxInt64)` is a valid input (`max > 0`,
`slotCnt > 0`, `max >= slotCnt`), yet `make(slotCon, slotCnt)` panics there, with
the bound of linux/amd64 and with every bound below `MaxInt64`, so neither a wheel
nor an error is returned. -/
theorem C6_counterexample :
    isInt64 maxInt64 ∧ 0 < maxInt64 ∧ maxInt64 ≤ maxInt64 ∧
      NewTimingWheel Nat maxLen64 maxInt64 maxInt64 = none ∧
      (∀ maxLen : Int, maxLen < maxInt64 → NewTimingWheel Nat maxLen maxInt64 maxInt64 = none) ∧
      ¬ (∀ max slotCnt : Int, isInt64 max → isInt64 slotCnt →
          ((∃ tw, NewTimingWheel Nat maxLen64 max slotCnt = some (Except.ok tw)) ↔
            (0 < max ∧ 0 < slotCnt ∧ slotCnt ≤ max))) := by
  have hpos : (0 : Int) < maxInt64 := by unfold maxInt64; decide
  have hint : isInt64 maxInt64 := by unfold isInt64 maxInt64; decide
  have hlim : maxLen64 < maxInt64 := by unfold maxLen64 maxInt64; decide
  have hpanic : ∀ maxLen : Int, maxLen < maxInt64 →
      NewTimingWheel Nat maxLen maxInt64 maxInt64 = none := by
    intro maxLen hl
    exact (newTimingWheel_panic_iff Nat maxLen maxInt64 maxInt64).2 ⟨hpos, hpos, le_refl _, hl⟩
  refine ⟨hint, hpos, le_refl _, hpanic maxLen64 hlim, hpanic, ?_⟩
  intro h
  obtain ⟨tw, htw⟩ := (h maxInt64 maxInt64 hint hint).2 ⟨hpos, hpos, le_refl _⟩
  rw [hpanic maxLen64 hlim] at htw
  cases htw

/-- C6 (amended): with `maxLen` the largest length the runtime accepts for
`make(slotCon, n)`, `NewTimingWheel(max, slotCnt)` returns a wheel (nil error) if
and only if `max > 0`, `slotCnt > 0`, `max >= slotCnt` and `slotCnt <= maxLen`; it
returns an error and no wheel if and only if `max <= 0`, `slotCnt <= 0` or
`max < slotCnt`; and it panics in `make`, returning nothing, exactly on the valid
inputs with `slotCnt > maxLen`.  The five failing inputs of `TestTimingwheel2`
return an error. -/
theorem C6_construction_outcomes (α : Type) (maxLen max slotCnt : Int) :
    ((∃ tw, NewTimingWheel α maxLen max slotCnt = some (Except.ok tw)) ↔
        (0 < max ∧ 0 < slotCnt ∧ slotCnt ≤ max ∧ slotCnt ≤ maxLen)) ∧
      ((∃ e, NewTimingWheel α maxLen max slotCnt = some (Except.error e)) ↔
        ¬ (0 < max ∧ 0 < slotCnt ∧ slotCnt ≤ max)) ∧
      (NewTimingWheel α maxLen max slotCnt = none ↔
        (0 < max ∧ 0 < slotCnt ∧ slotCnt ≤ max ∧ maxLen < slotCnt)) ∧
      NewTimingWheel α maxLen (-1) 2 = some (Except.error WheelError.errInvalidDuration) ∧
      NewTimingWheel α maxLen 0 2 = some (Except.error WheelError.errInvalidDuration) ∧
      NewTimingWheel α maxLen 2 (-1) = some (Except.error WheelError.errInvalidSlotCount) ∧
      NewTimingWheel α maxLen 2 0 = some (Except.error WheelError.errInvalidSlotCount) ∧
      NewTimingWheel α maxLen 1 2 = some (Except.error WheelError.errDurationTooSmall) :=
  ⟨newTimingWheel_ok_iff α maxLen max slotCnt, newTimingWheel_error_iff α maxLen max slotCnt,
    newTimingWheel_panic_iff α maxLen max slotCnt, rfl, rfl, rfl, rfl, rfl⟩

/-- C7: for `int64` inputs with `max > 0`, `slotCnt > 0` and `max >= slotCnt`,
`NewTimingWheel` returns a wheel whenever `make` accepts `slotCnt`, and every wheel
it returns has `stepTime = ceil(max / slotCnt)`: it is the unique `s` with
`slotCnt*(s-1) < max <= slotCnt*s`, it is strictly positive, and it is computed
without `int64` overflow (the wrapped increment equals the exact one and the result
is an `int64`). -/
theorem C7_stepTime_is_ceiling (α : Type) (maxLen max slotCnt : Int)
    (hmax : isInt64 max) (_hcnt : isInt64 slotCnt)
    (h1 : 0 < max) (h2 : 0 < slotCnt) (h3 : slotCnt ≤ max) :
    (slotCnt ≤ maxLen → ∃ tw, NewTimingWheel α maxLen max slotCnt = some (Except.ok tw)) ∧
      ∀ tw, NewTimingWheel α maxLen max slotCnt = some (Except.ok tw) →
        tw.stepTime = Int.ceil ((max : ℚ) / (slotCnt : ℚ)) ∧
        slotCnt * (tw.stepTime - 1) < max ∧ max ≤ slotCnt * tw.stepTime ∧
        (∀ s : Int, slotCnt * (s - 1) < max → max ≤ slotCnt * s → s = tw.stepTime) ∧
        0 < tw.stepTime ∧
        tw.stepTime = Int.tdiv max slotCnt + (if Int.tmod max slotCnt > 0 then 1 else 0) ∧
        isInt64 tw.stepTime := by
  obtain ⟨hdm, hr0, hrc, hq1, hqn, hq1n⟩ := tdiv_tmod_facts max slotCnt h2 h3
  have hmax2 : max < 2 ^ 63 := hmax.2
  have hexact : (if Int.tmod max slotCnt > 0 then wrapInt64 (Int.tdiv max slotCnt + 1)
      else Int.tdiv max slotCnt) =
      Int.tdiv max slotCnt + (if Int.tmod max slotCnt > 0 then 1 else 0) := by
    by_cases hr : Int.tmod max slotCnt > 0
    · have := hq1n hr
      simp only [hr, if_true]
      unfold wrapInt64
      omega
    · simp [hr]
  have hval := newTimingWheel_valid α maxLen max slotCnt h1 h2 h3
  rw [hexact] at hval
  constructor
  · intro hlim
    rw [hval, if_neg (not_lt.mpr hlim)]
    exact ⟨_, rfl⟩
  · intro tw htw
    rw [hval] at htw
    by_cases hbig : maxLen < slotCnt
    · rw [if_pos hbig] at htw
      cases htw
    rw [if_neg hbig] at htw
    cases htw
    simp only
    generalize hq : Int.tdiv max slotCnt = q at *
    generalize hrr : Int.tmod max slotCnt = r at *
    have hlow : slotCnt * (q + (if r > 0 then 1 else 0) - 1) < max := by
      by_cases hr : r > 0
      · simp only [hr, if_true]
        have : slotCnt * (q + 1 - 1) = slotCnt * q := by ring
        omega
      · simp only [hr, if_false]
        have : r = 0 := by omega
        have : slotCnt * (q + 0 - 1) = slotCnt * q - slotCnt := by ring
        omega
    have hhigh : max ≤ slotCnt * (q + (if r > 0 then 1 else 0)) := by
      by_cases hr : r > 0
      · simp only [hr, if_true]
        have : slotCnt * (q + 1) = slotCnt * q + slotCnt := by ring
        omega
      · simp only [hr, if_false]
        have : r = 0 := by omega
        have : slotCnt * (q + 0) = slotCnt * q := by ring
        omega
    have hcq : (0 : ℚ) < (slotCnt : ℚ) := by exact_mod_cast h2
    refine ⟨?_, hlow, hhigh, ?_, ?_, trivial, ?_⟩
    · symm
      rw [Int.ceil_eq_iff]
      constructor
      · rw [lt_div_iff₀ hcq]
        have : ((slotCnt * (q + (if r > 0 then 1 else 0) - 1) : Int) : ℚ) < (max : ℚ) := by
          exact_mod_cast hlow
        push_cast at this ⊢
        linarith
      · rw [div_le_iff₀ hcq]
        have : ((max : Int) : ℚ) ≤ ((slotCnt * (q + (if r > 0 then 1 else 0)) : Int) : ℚ) := by
          exact_mod_cast hhigh
        push_cast at this ⊢
        linarith
    · intro s hs1 hs2
      set t := q + (if r > 0 then 1 else 0) with ht
      by_contra hne
      rcases lt_or_gt_of_ne hne with hlt | hgt
      · have : slotCnt * s ≤ slotCnt * (t - 1) := by
          apply Int.mul_le_mul_of_nonneg_left _ h2.le
          omega
        omega
      · have : slotCnt * t ≤ slotCnt * (s - 1) := by
          apply Int.mul_le_mul_of_nonneg_left _ h2.le
          omega
        omega
    · by_cases hr : r > 0 <;> simp only [hr, if_true, if_false] <;> omega
    · unfold isInt64
      by_cases hr : r > 0
      · have := hq1n hr
        simp only [hr, if_true]
        omega
      · simp only [hr, if_false]
        omega

/-- Witness for C7: `NewTimingWheel(3ns, 2)` returns a wheel with `stepTime = 2`. -/
theorem C7_stepTime_is_ceiling_witness :
    ∃ tw, NewTimingWheel Nat maxLen64 3 2 = some (Except.ok tw) ∧
      tw.stepTime = 2 ∧
      tw.stepTime = Int.ceil (((3 : Int) : ℚ) / ((2 : Int) : ℚ)) ∧
      2 * (tw.stepTime - 1) < 3 ∧ (3 : Int) ≤ 2 * tw.stepTime ∧
      (∀ s : Int, 2 * (s - 1) < 3 → 3 ≤ 2 * s → s = tw.stepTime) ∧
      0 < tw.stepTime ∧
      tw.stepTime = Int.tdiv 3 2 + (if Int.tmod 3 2 > 0 then 1 else 0) ∧
      isInt64 tw.stepTime := by
  obtain ⟨hex, hall⟩ := C7_stepTime_is_ceiling Nat maxLen64 3 2 (by unfold isInt64; decide)
    (by unfold isInt64; decide) (by decide) (by decide) (by decide)
  obtain ⟨tw, htw⟩ := hex (by unfold maxLen64; decide)
  have h := hall tw htw
  exact ⟨tw, htw, by rw [h.2.2.2.2.2.1]; decide, h⟩

/-- C8 as stated fails: with `totalWindow = 0` and `slotCount = 0` the duration
check comes first and the error is `errInvalidDuration`, not `errInvalidSlotCount`. -/
theorem C8_counterexample :
    (0 : Int) ≤ 0 ∧
      NewTimingWheel Nat maxLen64 0 0 = some (Except.error WheelError.errInvalidDuration) ∧
      NewTimingWheel Nat maxLen64 0 0 ≠ some (Except.error WheelError.errInvalidSlotCount) ∧
      ¬ (∀ maxLen max slotCnt : Int, slotCnt ≤ 0 →
          NewTimingWheel Nat maxLen max slotCnt =
            some (Except.error WheelError.errInvalidSlotCount)) := by
  have h1 : ∀ maxLen : Int,
      NewTimingWheel Nat maxLen 0 0 = some (Except.error WheelError.errInvalidDuration) :=
    fun _ => rfl
  refine ⟨le_refl 0, h1 maxLen64, ?_, ?_⟩
  · rw [h1 maxLen64]
    intro e
    cases e
  · intro h
    have h0 := h maxLen64 0 0 (le_refl 0)
    rw [h1 maxLen64] at h0
    cases h0

/-- C8 (amended): for every `totalWindow > 0` and every `slotCount <= 0`,
`NewTimingWheel` fails with `errInvalidSlotCount`. -/
theorem C8_invalid_slot_count (α : Type) (maxLen max slotCnt : Int)
    (h1 : 0 < max) (h2 : slotCnt ≤ 0) :
    NewTimingWheel α maxLen max slotCnt =
      some (Except.error WheelError.errInvalidSlotCount) := by
  unfold NewTimingWheel
  simp [not_le.mpr h1, h2]

/-- Witness for C8 (amended), on the test inputs `(2, -1)` and `(2, 0)`. -/
theorem C8_invalid_slot_count_witness :
    NewTimingWheel Nat maxLen64 2 (-1) = some (Except.error WheelError.errInvalidSlotCount) ∧
      NewTimingWheel Nat maxLen64 2 0 = some (Except.error WheelError.errInvalidSlotCount) :=
  ⟨C8_invalid_slot_count Nat maxLen64 2 (-1) (by decide) (by decide),
    C8_invalid_slot_count Nat maxLen64 2 0 (by decide) (by decide)⟩

/-- C9 as stated fails: with `totalWindow = 0` and `slotCount = 1` the window is
smaller than the slot count, yet the error is `errInvalidDuration`, not
`errDurationTooSmall`. -/
theorem C9_counterexample :
    (0 : Int) < 1 ∧
      NewTimingWheel Nat maxLen64 0 1 = some (Except.error WheelError.errInvalidDuration) ∧
      NewTimingWheel Nat maxLen64 0 1 ≠ some (Except.error WheelError.errDurationTooSmall) ∧
      ¬ (∀ maxLen max slotCnt : Int, max < slotCnt →
          NewTimingWheel Nat maxLen max slotCnt =
            some (Except.error WheelError.errDurationTooSmall)) := by
  have h1 : ∀ maxLen : Int,
      NewTimingWheel Nat maxLen 0 1 = some (Except.error WheelError.errInvalidDuration) :=
    fun _ => rfl
  refine ⟨by decide, h1 maxLen64, ?_, ?_⟩
  · rw [h1 maxLen64]
    intro e
    cases e
  · intro h
    have h0 := h maxLen64 0 1 (by decide)
    rw [h1 maxLen64] at h0
    cases h0

/-- C9 (amended): for every `totalWindow > 0` (in nanoseconds) and `slotCount` with
`totalWindow < slotCount`, `NewTimingWheel` fails with `errDurationTooSmall`. -/
theorem C9_duration_too_small (α : Type) (maxLen max slotCnt : Int)
    (h1 : 0 < max) (h2 : max < slotCnt) :
    NewTimingWheel α maxLen max slotCnt =
      some (Except.error WheelError.errDurationTooSmall) := by
  unfold NewTimingWheel
  have h3 : ¬ slotCnt ≤ 0 := by omega
  simp [not_le.mpr h1, h3, h2]

/-- Witness for C9 (amended), on the test input `(1, 2)`. -/
theorem C9_duration_too_small_witness :
    (0 : Int) < 1 ∧ (1 : Int) < 2 ∧
      NewTimingWheel Nat maxLen64 1 2 = some (Except.error WheelError.errDurationTooSmall) :=
  ⟨by decide, by decide, C9_duration_too_small Nat maxLen64 1 2 (by decide) (by decide)⟩

end TimingWheelV2
